import Mathlib

/-!
Verification of the `rpc_component` version-registry manager.

The development shallowly embeds the Python sources (`rpc_component/schemata.py`,
`rpc_component/component.py`, `rpc_component/cli.py`) into Lean: pure functions
become Lean functions, exceptions become `Except`/`Option`, and the mutable
working tree of the git repository is threaded as explicit state.  Machine
integers do not occur (Python integers are unbounded), so numbers are `Nat`.
-/

/-! ## Version model (`schemata.py`: `version_regex`, `_version_key`)

A version identifier matches `[r]?MAJOR.MINOR.PATCH[-(alpha|beta|rc).N]`.
`_version_key` decomposes it into the 5-tuple
`(major, minor, patch, channel_rank, channel_version)` with channel ranks
alpha=0, beta=1, rc=2, release=3. -/

/-- The 5-tuple sort key produced by `_version_key` on a full version string. -/
structure VKey where
  major : Nat
  minor : Nat
  patch : Nat
  chRank : Nat
  chVer : Nat
deriving DecidableEq, Repr

/-- The key as the tuple Python compares lexicographically. -/
def VKey.toList (k : VKey) : List Nat :=
  [k.major, k.minor, k.patch, k.chRank, k.chVer]

/-- Python `tuple.__lt__` on integer tuples: lexicographic comparison. -/
def tupleLtB : List Nat → List Nat → Bool
  | [], [] => false
  | [], _ :: _ => true
  | _ :: _, [] => false
  | x :: xs, y :: ys => if x < y then true else if y < x then false else tupleLtB xs ys

/-- Python `tuple.__le__` on integer tuples. -/
def tupleLeB : List Nat → List Nat → Bool
  | [], _ => true
  | _ :: _, [] => false
  | x :: xs, y :: ys => if x < y then true else if y < x then false else tupleLeB xs ys

/-- Strict order on version keys, as used by `Release.__lt__`. -/
def vkeyLtB (a b : VKey) : Bool := tupleLtB a.toList b.toList

/-- Non-strict order on version keys. -/
def vkeyLeB (a b : VKey) : Bool := tupleLeB a.toList b.toList

/-! ### Character-level parsing of the version grammar

`re.match(version_regex, s)` is embedded as a deterministic recursive-descent
parser over `s.data`.  The regex is deterministic (each alternative is decided
by the next character, `[0-9]+` is followed by a non-digit), so greedy matching
without backtracking is exact. -/

/-- The digit character for `d < 10` (ASCII). -/
def digitChar (d : Nat) : Char := Char.ofNat (48 + d)

/-- Numeric value of a digit character. -/
def digitVal (c : Char) : Nat := c.toNat - 48

/-- Value of a digit string, most significant first (`int(...)` on the match group). -/
def digitsVal (ds : List Char) : Nat := ds.foldl (fun a c => a * 10 + digitVal c) 0

/-- Parse a maximal nonempty run of digits (`[0-9]+`), returning its integer
value and the rest of the input. -/
def parseDigits (l : List Char) : Option (Nat × List Char) :=
  let ds := l.takeWhile Char.isDigit
  if ds.isEmpty then none else some (digitsVal ds, l.dropWhile Char.isDigit)

/-- Consume one expected literal character (e.g. the `\.` and `-` of the
regex), failing on anything else. -/
def consumeChar (ch : Char) (l : List Char) : Option (List Char) :=
  match l with
  | [] => none
  | c :: rest => if c = ch then some rest else none

/-- The channel alternative `(alpha|beta|rc)` with its rank. -/
def parseChanTag (l : List Char) : Option (Nat × List Char) :=
  match l with
  | 'a' :: 'l' :: 'p' :: 'h' :: 'a' :: r => some (0, r)
  | 'b' :: 'e' :: 't' :: 'a' :: r => some (1, r)
  | 'r' :: 'c' :: r => some (2, r)
  | _ => none

/-- Parse `(-(alpha|beta|rc).N)?$` given the channel map alpha=0, beta=1, rc=2,
release=3, returning `(channel_rank, channel_version)`. -/
def parseChannel (l : List Char) : Option (Nat × Nat) :=
  match l with
  | [] => some (3, 0)
  | _ :: _ => do
    let l1 ← consumeChar '-' l
    let (rank, l2) ← parseChanTag l1
    let l3 ← consumeChar '.' l2
    match parseDigits l3 with
    | some (n, []) => some (rank, n)
    | _ => none

/-- Parse `MAJOR.MINOR.PATCH[-(alpha|beta|rc).N]$` (everything after the
optional leading `r`). -/
def parseVersionCore (l : List Char) : Option VKey := do
  let (major, l1) ← parseDigits l
  let l2 ← consumeChar '.' l1
  let (minor, l3) ← parseDigits l2
  let l4 ← consumeChar '.' l3
  let (patch, l5) ← parseDigits l4
  let (rank, cv) ← parseChannel l5
  pure ⟨major, minor, patch, rank, cv⟩

/-- Strip the optional leading `r` of the version grammar.  `r` can only be
followed by a digit (`MAJOR`), so consuming it greedily is exact. -/
def stripR (l : List Char) : List Char :=
  match l with
  | [] => []
  | c :: rest => if c = 'r' then rest else c :: rest

/-- `version_key`: `re.match(version_regex, s)` followed by `_version_key`
group extraction; `none` models a match failure. -/
def version_key (s : String) : Option VKey :=
  parseVersionCore (stripR s.data)

/-! ### Constraint keys (`constraint_regex`, `constraint_key`)

A constraint partial version may omit minor/patch.  `_version_key` then yields
`None` for the omitted fields, and `build_constraint_checker` truncates the
tuple with `takewhile(x is not None, ...)`, so the effective constraint key is
the list of fields before the first omitted one. -/

/-- Key of a constraint partial version after the `takewhile` truncation:
`[major]`, `[major, minor]`, or the full 5-field key.  The channel fields are
never `None` (`prerelease_map[None] = 3`, `int(... or 0)`), so a partial with
major, minor and patch always keeps all five fields. -/
def parseConstraintCore (l : List Char) : Option (List Nat) := do
  let (major, l1) ← parseDigits l
  match l1 with
  | [] => some [major]
  | _ :: _ => do
    let l2 ← consumeChar '.' l1
    let (minor, l3) ← parseDigits l2
    match l3 with
    | [] => some [major, minor]
    | _ :: _ => do
      let l4 ← consumeChar '.' l3
      let (patch, l5) ← parseDigits l4
      let (rank, cv) ← parseChannel l5
      pure [major, minor, patch, rank, cv]

/-- `constraint_key` composed with the `takewhile` truncation of
`build_constraint_checker`. -/
def constraint_key (s : String) : Option (List Nat) :=
  parseConstraintCore (stripR s.data)

/-! ### Rendering a key back to a string

The spec's reconstruction `major.minor.patch[-channel.n]`. -/

/-- Base-10 digits of `n`, most significant first (`"0"` for zero). -/
def natDigits (n : Nat) : List Char :=
  if _h : n < 10 then [digitChar n]
  else natDigits (n / 10) ++ [digitChar (n % 10)]
termination_by n
decreasing_by
  exact Nat.div_lt_self (by omega) (by omega)

/-- Channel name for a channel rank below 3. -/
def chanName (rank : Nat) : List Char :=
  if rank = 0 then ['a', 'l', 'p', 'h', 'a']
  else if rank = 1 then ['b', 'e', 't', 'a']
  else ['r', 'c']

/-- Reconstruct `major.minor.patch[-channel.n]` from a sort key. -/
def renderVKey (k : VKey) : String :=
  ⟨natDigits k.major ++ '.' :: natDigits k.minor ++ '.' :: natDigits k.patch ++
    (if k.chRank = 3 then [] else '-' :: chanName k.chRank ++ '.' :: natDigits k.chVer)⟩

/-- Keys that arise from parsing: the channel rank is one of 0–3 and a plain
release (rank 3) has channel version 0. -/
def VKey.WF (k : VKey) : Prop := k.chRank ≤ 3 ∧ (k.chRank = 3 → k.chVer = 0)

/-! ## Registry entities (`component.py`: `Release`, `Component`)

`Release.__eq__` compares version strings; `Release.__lt__` compares version
keys.  A release's version is validated against `version_regex` before any
ordering is consulted, so `version_key` is total on the versions that occur;
where Python would raise on an unparsable version, the embedding returns an
error. -/

/-- A release: `(version, sha, series)`.  The back-reference to the owning
component is left implicit (it is only used to re-enter `add_release`). -/
structure Release where
  version : String
  sha : String
  series : String
deriving DecidableEq, Repr

/-- A component.  `directory` and `_orig_state` only matter for persistence
and are not needed by any claim about the entity operations. -/
structure Component where
  name : String
  repo_url : String
  is_product : Bool
  releases : List Release
deriving DecidableEq, Repr

/-- `version_key r.version < version_key s.version`, the comparison behind
`Release.__lt__`; `none` on either side models the `AttributeError` Python
would raise on an unparsable version. -/
def releaseLtB (r s : Release) : Bool :=
  match version_key r.version, version_key s.version with
  | some a, some b => vkeyLtB a b
  | _, _ => false

/-- Insert a release into an ascending list, after any equal-key prefix:
together with `sortReleases` this reproduces the stable ascending sort
`sorted(releases)` that `add_release` performs. -/
def insertRelease (r : Release) : List Release → List Release
  | [] => [r]
  | s :: rest => if releaseLtB s r then s :: insertRelease r rest else r :: s :: rest

/-- Stable ascending insertion sort by version key: the order produced by
Python's stable `sorted` on `Release` values. -/
def sortReleases : List Release → List Release
  | [] => []
  | r :: rest => insertRelease r (sortReleases rest)

/-- `Component.add_release`: reject a duplicate version id (across all
series), otherwise append and re-sort ascending. -/
def add_release (c : Component) (r : Release) : Except String Component :=
  if c.releases.any (fun s => s.version == r.version) then
    .error ("Release with version " ++ r.version ++ " already exists.")
  else
    .ok { c with releases := sortReleases (c.releases ++ [r]) }

/-- `Component.__init__`: start from no releases and `add_release` each given
release dict in order (via `create_release`/`Release.__init__`). -/
def componentNew (name repo_url : String) (is_product : Bool)
    (releases : List Release) : Except String Component :=
  releases.foldlM add_release
    { name := name, repo_url := repo_url, is_product := is_product, releases := [] }

/-- The `predecessor=True` loop of `Component.get_release`: walk the releases
in list order remembering the previous one; on the first version match return
the remembered release, or fail if there is none; fail if the loop finishes
without a match. -/
def getReleasePredLoop (version : String) (pred : Option Release) :
    List Release → Except String Release
  | [] => .error ("Release with version " ++ version ++ " does not exist")
  | r :: rest =>
    if r.version == version then
      pred.elim
        (.error ("Release with version " ++ version ++ " does not have a predecessor."))
        .ok
    else getReleasePredLoop version (some r) rest

/-- The `predecessor=False` loop of `Component.get_release`: first release
whose version string matches exactly. -/
def getReleaseFindLoop (version : String) : List Release → Except String Release
  | [] => .error ("Release with version " ++ version ++ " does not exist")
  | r :: rest => if r.version == version then .ok r else getReleaseFindLoop version rest

/-- `Component.get_release(version, predecessor)`. -/
def get_release (c : Component) (version : String) (predecessor : Bool) :
    Except String Release :=
  if predecessor then getReleasePredLoop version none c.releases
  else getReleaseFindLoop version c.releases

/-! ## Constraint resolver (`build_constraint_checker`,
`requirement_from_version_constraints`) -/

/-- The six comparison operators of `comparison_operator_regex`. -/
inductive CmpOp where
  | opEq | opNe | opGe | opLe | opGt | opLt
deriving DecidableEq, Repr

/-- `op_map`: Python's `operator.eq/ne/ge/le/gt/lt` on integer tuples. -/
def applyCmpOp (op : CmpOp) (a b : List Nat) : Bool :=
  match op with
  | .opEq => a == b
  | .opNe => a != b
  | .opGe => tupleLeB b a
  | .opLe => tupleLeB a b
  | .opGt => tupleLtB b a
  | .opLt => tupleLtB a b

/-- Parse a constraint expression against `version_constraint_regex`
(`^version{op}{version}$`), returning the operator and the truncated
constraint key. -/
def parseVersionConstraint (s : String) : Option (CmpOp × List Nat) :=
  match s.data with
  | 'v' :: 'e' :: 'r' :: 's' :: 'i' :: 'o' :: 'n' :: rest =>
    let opSplit : Option (CmpOp × List Char) :=
      match rest with
      | '=' :: '=' :: r => some (.opEq, r)
      | '!' :: '=' :: r => some (.opNe, r)
      | '<' :: '=' :: r => some (.opLe, r)
      | '>' :: '=' :: r => some (.opGe, r)
      | '<' :: r => some (.opLt, r)
      | '>' :: r => some (.opGt, r)
      | _ => none
    match opSplit with
    | some (op, r) => (parseConstraintCore (stripR r)).map (fun ck => (op, ck))
    | none => none
  | _ => none

/-- One compiled predicate of `build_constraint_checker`: truncate the
candidate's key to the constraint key's length and compare.  `none` models the
`TypeError`/`AttributeError` Python would raise on an unparsable candidate. -/
def checkConstraint (op : CmpOp) (ck : List Nat) (version : String) : Option Bool :=
  (constraint_key version).map (fun vk => applyCmpOp op (vk.take ck.length) ck)

/-- `build_constraint_checker` over already-parsed constraints followed by the
`all(...)` conjunction, evaluated at one candidate version. -/
def meetsConstraints (checks : List (CmpOp × List Nat)) (version : String) : Option Bool :=
  checks.foldr
    (fun c acc => do
      let b ← checkConstraint c.1 c.2 version
      let rest ← acc
      pure (b && rest))
    (some true)

/-- A resolved requirement record. -/
structure Requirement where
  name : String
  ref : Option String
  refIsTag : Bool
  repo_url : String
  sha : String
  version : Option String
deriving DecidableEq, Repr

/-- The requirement built for a release chosen by the resolver. -/
def requirementOfRelease (c : Component) (r : Release) : Requirement :=
  { name := c.name, ref := some r.version, refIsTag := true,
    repo_url := c.repo_url, sha := r.sha, version := some r.version }

/-- Resolver failure modes: no matching version (the aggregating exception,
naming the component and its constraints), or a crash on malformed input. -/
inductive ResolveErr where
  | noMatch (name : String) (constraints : List String)
  | badInput
deriving DecidableEq, Repr

/-- The scan of `requirement_from_version_constraints`: releases from highest
to lowest (the component's list reversed), first one meeting all checks. -/
def resolveScan (c : Component) (checks : List (CmpOp × List Nat))
    (constraints : List String) : List Release → Except ResolveErr Requirement
  | [] => .error (.noMatch c.name constraints)
  | r :: rest =>
    match meetsConstraints checks r.version with
    | none => .error .badInput
    | some true => .ok (requirementOfRelease c r)
    | some false => resolveScan c checks constraints rest

/-- `requirement_from_version_constraints(component, constraints)`. -/
def requirement_from_version_constraints (c : Component) (constraints : List String) :
    Except ResolveErr Requirement :=
  match constraints.mapM parseVersionConstraint with
  | none => .error .badInput
  | some checks => resolveScan c checks constraints c.releases.reverse

/-! ## Documents and schema validation (`schemata.py`)

YAML/`dict` documents are embedded as an inductive value type; a Python dict
is a list of string-keyed fields in insertion order (lookups ignore order,
equality of embedded dicts built by this code compares fields in the canonical
construction order, matching Python equality on the docs the code builds). -/

/-- A structured document: strings, booleans, lists and string-keyed maps. -/
inductive DocVal where
  | s (v : String)
  | b (v : Bool)
  | l (items : List DocVal)
  | d (fields : List (String × DocVal))
deriving Repr

mutual

/-- Structural equality of documents (Python `==` on the values the code
builds; embedded dicts compare fieldwise in construction order). -/
def docBeq : DocVal → DocVal → Bool
  | .s a, .s b => a == b
  | .b a, .b b => a == b
  | .l a, .l b => docListBeq a b
  | .d a, .d b => docFieldsBeq a b
  | _, _ => false

/-- Elementwise equality of document lists. -/
def docListBeq : List DocVal → List DocVal → Bool
  | [], [] => true
  | x :: xs, y :: ys => docBeq x y && docListBeq xs ys
  | _, _ => false

/-- Fieldwise equality of embedded dicts. -/
def docFieldsBeq : List (String × DocVal) → List (String × DocVal) → Bool
  | [], [] => true
  | (k1, v1) :: xs, (k2, v2) :: ys => k1 == k2 && docBeq v1 v2 && docFieldsBeq xs ys
  | _, _ => false

end

instance : BEq DocVal := ⟨docBeq⟩

/-- Association-list lookup, Python `dict.__getitem__` up to the `KeyError`. -/
def lookupField (fields : List (String × DocVal)) (k : String) : Option DocVal :=
  match fields with
  | [] => none
  | (k', v) :: rest => if k' == k then some v else lookupField rest k

/-- All strings in a list distinct (`len(values) == len(set(values))`). -/
def allDistinct : List String → Bool
  | [] => true
  | x :: xs => !(xs.contains x) && allDistinct xs

/-- The keys of an embedded dict. -/
def keysOf (fields : List (String × DocVal)) : List String := fields.map Prod.fst

/-- A `schema` dict pattern with all keys required: the data's keys are
exactly the required ones (each present once). -/
def exactKeys (fields : List (String × DocVal)) (req : List String) : Bool :=
  allDistinct (keysOf fields) && req.all (fun k => (keysOf fields).contains k) &&
    (keysOf fields).all (fun k => req.contains k)

/-- `Regex(r"^https://github.com/.+")`. -/
def urlValid (s : String) : Bool :=
  match s.data with
  | 'h' :: 't' :: 't' :: 'p' :: 's' :: ':' :: '/' :: '/' :: 'g' :: 'i' :: 't' :: 'h' ::
      'u' :: 'b' :: '.' :: 'c' :: 'o' :: 'm' :: '/' :: rest => !rest.isEmpty
  | _ => false

/-- `Regex(sha_regex)`: exactly 40 lowercase hex characters. -/
def shaValid (s : String) : Bool :=
  s.length == 40 && s.data.all (fun c => c.isDigit || ('a' ≤ c && c ≤ 'f'))

/-- `Regex(version_regex)`. -/
def versionIdValid (s : String) : Bool := (version_key s).isSome

/-- `version_schema`: a dict with exactly the keys `version` (matching the
version grammar) and `sha` (40 hex chars). -/
def versionEntryValid (v : DocVal) : Bool :=
  match v with
  | .d f =>
    exactKeys f ["version", "sha"] &&
      (match lookupField f "version", lookupField f "sha" with
       | some (.s vs), some (.s sh) => versionIdValid vs && shaValid sh
       | _, _ => false)
  | _ => false

/-- Extract `(version, sha)` from a version entry. -/
def versionEntryPair (v : DocVal) : Option (String × String) :=
  match v with
  | .d f =>
    match lookupField f "version", lookupField f "sha" with
    | some (.s vs), some (.s sh) => some (vs, sh)
    | _, _ => none
  | _ => none

/-- Stable descending insertion by version key, the building block of
`sorted(versions, key=..., reverse=True)` (Python's sort is stable, also with
`reverse=True`). -/
def insertVersionDesc (x : String × String) :
    List (String × String) → Option (List (String × String))
  | [] => some [x]
  | y :: rest => do
    let kx ← version_key x.1
    let ky ← version_key y.1
    if vkeyLtB kx ky then
      let tail ← insertVersionDesc x rest
      pure (y :: tail)
    else pure (x :: y :: rest)

/-- `sorted_versions`: stable sort, highest version key first.  `none` models
the exception `version_key` would raise on an unparsable version (unreachable
after the per-entry regex validation that precedes this check). -/
def sorted_versions : List (String × String) → Option (List (String × String))
  | [] => some []
  | x :: rest => do
    let sortedRest ← sorted_versions rest
    insertVersionDesc x sortedRest

/-- `is_sorted_versions`: the list equals its descending sort. -/
def is_sorted_versions (vs : List (String × String)) : Bool :=
  match sorted_versions vs with
  | some sorted => vs == sorted
  | none => false

/-- One element of the `releases` list in `component_schema`: a dict with
exactly `series` (nonempty string) and `versions` (a list of valid version
entries that `is_sorted_versions` accepts). -/
def seriesGroupValid (g : DocVal) : Bool :=
  match g with
  | .d f =>
    exactKeys f ["series", "versions"] &&
      (match lookupField f "series", lookupField f "versions" with
       | some (.s sn), some (.l vs) =>
         !(sn == "") && vs.all versionEntryValid &&
           (match vs.mapM versionEntryPair with
            | some pairs => is_sorted_versions pairs
            | none => false)
       | _, _ => false)
  | _ => false

/-- The series label of a series group (for `is_value_unique("series")`). -/
def seriesNameOf (g : DocVal) : Option String :=
  match g with
  | .d f =>
    match lookupField f "series" with
    | some (.s sn) => some sn
    | _ => none
  | _ => none

/-- The version ids of a series group (for `is_version_ids_unique`). -/
def seriesVersionIds (g : DocVal) : List String :=
  match g with
  | .d f =>
    match lookupField f "versions" with
    | some (.l vs) => vs.filterMap (fun v => (versionEntryPair v).map Prod.fst)
    | _ => []
  | _ => []

/-- `component_schema`: name/repo_url/is_product plus a releases list whose
groups are valid, with unique series labels and globally unique version ids. -/
def componentSchemaValid (doc : DocVal) : Bool :=
  match doc with
  | .d f =>
    exactKeys f ["name", "repo_url", "is_product", "releases"] &&
      (match lookupField f "name", lookupField f "repo_url",
             lookupField f "is_product", lookupField f "releases" with
       | some (.s n), some (.s u), some (.b _), some (.l rs) =>
         !(n == "") && urlValid u && rs.all seriesGroupValid &&
           (match rs.mapM seriesNameOf with
            | some names => allDistinct names
            | none => false) &&
           allDistinct (rs.flatMap seriesVersionIds)
       | _, _, _, _ => false)
  | _ => false

/-! ## Serialization (`Component.to_dict`) -/

/-- `itertools.groupby(releases, attrgetter("series"))`: group consecutive
runs with equal series label. -/
def groupBySeries : List Release → List (String × List Release)
  | [] => []
  | r :: rest =>
    match groupBySeries rest with
    | [] => [(r.series, [r])]
    | (s, g) :: t =>
      if r.series == s then (r.series, r :: g) :: t else (r.series, [r]) :: (s, g) :: t

/-- The dict literal built inside `Component.to_dict`, before validation. -/
def buildComponentDoc (c : Component) : DocVal :=
  .d [("name", .s c.name), ("repo_url", .s c.repo_url), ("is_product", .b c.is_product),
      ("releases", .l ((groupBySeries c.releases).map (fun g =>
        .d [("series", .s g.1), ("versions", .l (g.2.map (fun r =>
          .d [("version", .s r.version), ("sha", .s r.sha)])))])))]

/-- `Component.to_dict`: build the document and validate it against
`component_schema`; `none` models the `SchemaError` escaping the method. -/
def to_dict (c : Component) : Option DocVal :=
  let doc := buildComponentDoc c
  if componentSchemaValid doc then some doc else none

/-! ## Structural diff (`Component.difference`) -/

/-- Update the pair table of the `releases` branch: `release_pairs[sv][idx] = fields`.
The table is keyed by the series value in first-touch (insertion) order. -/
def upsertPair (table : List (DocVal × List (String × DocVal) × List (String × DocVal)))
    (sv : DocVal) (isRight : Bool) (fields : List (String × DocVal)) :
    List (DocVal × List (String × DocVal) × List (String × DocVal)) :=
  match table with
  | [] => if isRight then [(sv, [], fields)] else [(sv, fields, [])]
  | (k, fa, fb) :: rest =>
    if k == sv then
      (if isRight then (k, fa, fields) else (k, fields, fb)) :: rest
    else (k, fa, fb) :: upsertPair rest sv isRight fields

/-- Fill one side of the pair table from a releases list; every element must
be a dict with a `series` key (`r["series"]` raises otherwise). -/
def fillPairs (table : List (DocVal × List (String × DocVal) × List (String × DocVal)))
    (isRight : Bool) :
    List DocVal → Option (List (DocVal × List (String × DocVal) × List (String × DocVal)))
  | [] => some table
  | r :: rest =>
    match r with
    | .d f =>
      match lookupField f "series" with
      | some sv => fillPairs (upsertPair table sv isRight f) isRight rest
      | none => none
    | _ => none

/-- The recursive `_difference(a, b)` of `Component.difference`: keys of `a`
missing from `b` contribute their value; equal values are skipped; the
`releases` key is diffed per series through the pair table; nested dicts
recurse; lists are diffed by membership; differing scalars contribute `a`'s
value.  `fuel` bounds the recursion depth (the source recursion terminates on
the nested documents; `none` from exhausted fuel never occurs at the depths
used here), and `none` also models the exceptions `_difference` can raise on
non-document values. -/
def diffDict : Nat → List (String × DocVal) → List (String × DocVal) →
    Option (List (String × DocVal))
  | 0, _, _ => none
  | fuel + 1, a, b =>
    a.foldr
      (fun kv acc => do
        let tail ← acc
        let k := kv.1
        let av := kv.2
        match lookupField b k with
        | none => pure ((k, av) :: tail)
        | some bv =>
          if av == bv then pure tail
          else if k == "releases" then
            match av, bv with
            | .l la, .l lb => do
              let table ← fillPairs [] false la
              let table ← fillPairs table true lb
              let pairDiffs ← table.mapM (fun p => diffDict fuel p.2.1 p.2.2)
              let valueDiff := (pairDiffs.filter (fun sub => !sub.isEmpty)).map DocVal.d
              if valueDiff.isEmpty then pure tail else pure ((k, .l valueDiff) :: tail)
            | _, _ => none
          else
            match av with
            | .d da =>
              match bv with
              | .d db => do
                let sub ← diffDict fuel da db
                if sub.isEmpty then pure tail else pure ((k, .d sub) :: tail)
              | _ => none
            | .l la =>
              match bv with
              | .l lb =>
                let valueDiff := la.filter (fun x => !lb.contains x)
                if valueDiff.isEmpty then pure tail else pure ((k, .l valueDiff) :: tail)
              | _ => none
            | _ => pure ((k, av) :: tail))
      (some [])

/-- Recursion depth ample for component documents (they nest 4 levels). -/
def diffFuel : Nat := 32

/-- `Component.difference`: diff the two canonical document forms.  `none`
models an escaping exception (in particular the `SchemaError` either
`to_dict` call can raise). -/
def difference (a b : Component) : Option (List (String × DocVal)) :=
  match to_dict a, to_dict b with
  | some (.d da), some (.d db) => diffDict diffFuel da db
  | _, _ => none

/-! ## Snapshot comparison verification
(`schemata.py`: `comparison_added_version_schema`; `cli.py`: `compare`) -/

/-- One element of the `releases` list pattern inside
`comparison_added_version_schema`: keys within `series`/`versions`, `series`
optional but a nonempty string when present, `versions` a list of exactly one
entry matching `version_schema`. -/
def comparisonSeriesGroupValid (g : DocVal) : Bool :=
  match g with
  | .d gf =>
    allDistinct (keysOf gf) &&
      (keysOf gf).all (fun k => k == "series" || k == "versions") &&
      (match lookupField gf "series" with
       | some (.s sn) => !(sn == "")
       | some _ => false
       | none => true) &&
      (match lookupField gf "versions" with
       | some (.l vs) => vs.length == 1 && vs.all versionEntryValid
       | _ => false)
  | _ => false

/-- The per-component value pattern of `comparison_added_version_schema`:
exactly the keys `added` (exactly a one-group `releases` list) and `deleted`
(the empty mapping). -/
def comparisonEntryValid (v : DocVal) : Bool :=
  match v with
  | .d f =>
    exactKeys f ["added", "deleted"] &&
      (match lookupField f "deleted" with
       | some (.d []) => true
       | _ => false) &&
      (match lookupField f "added" with
       | some (.d fa) =>
         exactKeys fa ["releases"] &&
           (match lookupField fa "releases" with
            | some (.l rs) => rs.length == 1 && rs.all comparisonSeriesGroupValid
            | _ => false)
       | _ => false)
  | _ => false

/-- `comparison_added_version_schema`: exactly one entry, keyed by a nonempty
string, whose value matches `comparisonEntryValid`. -/
def comparisonAddedVersionValid (comparison : DocVal) : Bool :=
  match comparison with
  | .d entries =>
    entries.length == 1 && allDistinct (keysOf entries) &&
      entries.all (fun e => !(e.1 == "") && comparisonEntryValid e.2)
  | _ => false

/-- The shape stated by the specification for `release`-mode verification,
exactly as worded: the map has exactly one component key, its `deleted` part
is empty, and its `added` part is exactly one series containing exactly one
version entry.  (No well-formedness of the entry itself is demanded.) -/
def releaseShapeSpec (comparison : DocVal) : Bool :=
  match comparison with
  | .d entries =>
    entries.length == 1 &&
      entries.all (fun e =>
        match e.2 with
        | .d f =>
          (match lookupField f "deleted" with
           | some (.d []) => true
           | _ => false) &&
            (match lookupField f "added" with
             | some (.d fa) =>
               (match lookupField fa "releases" with
                | some (.l rs) =>
                  rs.length == 1 &&
                    rs.all (fun g =>
                      match g with
                      | .d gf =>
                        (match lookupField gf "versions" with
                         | some (.l vs) => vs.length == 1
                         | _ => false)
                      | _ => false)
                | _ => false)
             | _ => false)
        | _ => false)
  | _ => false

/-- Extract the component name and added version that the success path of
`compare --verify release` reads out of the validated map
(`comparison.popitem()` and the nested indexing). -/
def extractAddedNameVersion (comparison : DocVal) : Option (String × String) :=
  match comparison with
  | .d [(name, .d f)] =>
    match lookupField f "added" with
    | some (.d fa) =>
      match lookupField fa "releases" with
      | some (.l [.d gf]) =>
        match lookupField gf "versions" with
        | some (.l [.d vf]) =>
          match lookupField vf "version" with
          | some (.s ver) => some (name, ver)
          | _ => none
        | _ => none
      | _ => none
    | _ => none
  | _ => none

/-- Failure modes of `compare --verify release`.  The shape failure carries
the comparison map, as the raised `ComponentError` message embeds the rendered
diff (and the schema violation). -/
inductive VerifyErr where
  | invalidShape (comparison : DocVal)
  | indexError
  | lookupError (msg : String)
deriving BEq, Repr

/-- The `release`-mode branch of `cli.compare`, given the computed comparison
map and the components loaded at the `to` revision: validate the map's shape,
then return the single newly added release via `get_release` on the matching
`to` component. -/
def compare_verify_release (comparison : DocVal) (toComponents : List Component) :
    Except VerifyErr Release :=
  if comparisonAddedVersionValid comparison then
    match extractAddedNameVersion comparison with
    | none => .error (.lookupError "KeyError")
    | some (name, ver) =>
      match toComponents.filter (fun c => c.name == name) with
      | [] => .error .indexError
      | c :: _ =>
        match get_release c ver false with
        | .ok r => .ok r
        | .error e => .error (.lookupError e)
  else .error (.invalidShape comparison)

/-! ## Loading the registry at a revision (`load_all_components`) -/

/-- The mutable working-tree state of the consuming repository: the commit the
head currently points at (index and tree are reset to it). -/
structure GitRepo where
  head : String
deriving DecidableEq, Repr

/-- `Component.from_file` on an already-read document: validate against
`component_schema`, flatten the series groups into release dicts (series
order, then version order), and rebuild the component through `__init__`
(which re-adds every release via `add_release`). -/
def component_from_file (doc : DocVal) : Except String Component :=
  if componentSchemaValid doc then
    match doc with
    | .d f =>
      match lookupField f "name", lookupField f "repo_url",
            lookupField f "is_product", lookupField f "releases" with
      | some (.s n), some (.s u), some (.b p), some (.l rs) =>
        let flat := rs.flatMap (fun g =>
          match g with
          | .d gf =>
            match lookupField gf "series", lookupField gf "versions" with
            | some (.s sn), some (.l vs) =>
              vs.filterMap (fun v => (versionEntryPair v).map
                (fun pr => Release.mk pr.1 pr.2 sn))
            | _, _ => []
          | _ => [])
        componentNew n u p flat
      | _, _, _, _ => .error "unreachable: validated document"
    | _ => .error "unreachable: validated document"
  else .error "Component document failed schema validation."

/-- `load_all_components(component_dir, repo_dir, commitish)` with the
repository state passed explicitly.  `resolve` is `repo.commit` (resolving a
commitish, `none` for an unknown one); `files` are the component documents
present in the component directory once the historical revision is checked
out.  The function records the starting commit, checks out the requested
revision, loads every component in turn, and only on the success path checks
the starting commit out again; the final repository state is returned on
every path. -/
def load_all_components (resolve : String → Option String) (files : List DocVal)
    (st : GitRepo) (commitish : String) :
    Except String (List Component) × GitRepo :=
  match resolve commitish with
  | none => (.error "bad commitish", st)
  | some commit =>
    let checkedOut : GitRepo := ⟨commit⟩
    match files.mapM component_from_file with
    | .error e => (.error e, checkedOut)
    | .ok comps => (.ok comps, ⟨st.head⟩)

/-! ## Requirements pipeline (`requirement_from_branch_constraints`,
`update_requirements`, `cli.dependency`) -/

/-- `branch_constraint_regex` (`^branch==(?P<branch_name>.+)$`): the branch
name, when the constraint matches. -/
def branchNameOf (s : String) : Option String :=
  match s.data with
  | 'b' :: 'r' :: 'a' :: 'n' :: 'c' :: 'h' :: '=' :: '=' :: rest =>
    if rest.isEmpty then none else some (String.mk rest)
  | _ => none

/-- `branch_constraints_schema`: a one-element list of branch constraints. -/
def branchConstraintsValid (cs : List String) : Bool :=
  match cs with
  | [c] => (branchNameOf c).isSome
  | _ => false

/-- `requirement_from_branch_constraints(component, constraints)` with the
caller's constraint list threaded explicitly: `constraints.pop()` removes the
last element from the caller's list, the assertion demands nothing is left,
and the branch tip is resolved by cloning (`resolveBranch`, `none` for a
failed clone).  On success the requirement is returned together with the
caller-visible remainder of the mutated list. -/
def requirement_from_branch_constraints (resolveBranch : String → Option String)
    (c : Component) (constraints : List String) :
    Except String (Requirement × List String) :=
  match constraints.getLast? with
  | none => .error "IndexError: pop from empty list"
  | some con =>
    let remaining := constraints.dropLast
    if !remaining.isEmpty then .error "AssertionError"
    else
      match branchNameOf con with
      | none => .error "AttributeError: branch constraint does not match"
      | some bn =>
        match resolveBranch bn with
        | none => .error "GitCommandError: clone failed"
        | some sha =>
          .ok ({ name := c.name, ref := some bn, refIsTag := false,
                 repo_url := c.repo_url, sha := sha, version := none }, remaining)

/-- One entry of the dependency metadata document. -/
structure DepEntry where
  name : String
  constraints : List String
deriving DecidableEq, Repr

/-- Failure modes of `update_requirements`. -/
inductive UpdateErr where
  | componentNotFound (name : String)
  | unresolved (name : String) (constraints : List String)
  | badInput
  | invalidRequirements
deriving DecidableEq, Repr

/-- `component_requirements_schema` on a built requirements list. -/
def requirementsDocValid (reqs : List Requirement) : Bool :=
  reqs.all (fun r =>
    !(r.name == "") &&
      (match r.ref with
       | some s => !(s == "")
       | none => true) &&
      urlValid r.repo_url && shaValid r.sha &&
      (match r.version with
       | some v => versionIdValid v
       | none => true)) &&
    allDistinct (reqs.map (fun r => r.name))

/-- The body of the `update_requirements` loop for one dependency entry:
load the component (`cenv` is `Component.from_file` over the component
directory), validate the constraints against `branch_constraints_schema` to
pick the resolver, and produce the pinned requirement; the branch resolver's
list mutation is invisible here. -/
def resolveDependency (cenv : String → Option Component)
    (benv : String → Option String) (dep : DepEntry) : Except UpdateErr Requirement :=
  match cenv dep.name with
  | none => Except.error (.componentNotFound dep.name)
  | some comp =>
    if branchConstraintsValid dep.constraints then
      match requirement_from_branch_constraints benv comp dep.constraints with
      | .ok (req, _) => Except.ok req
      | .error _ => Except.error .badInput
    else
      match requirement_from_version_constraints comp dep.constraints with
      | .ok req => Except.ok req
      | .error (.noMatch n cs) => Except.error (.unresolved n cs)
      | .error .badInput => Except.error .badInput

/-- `update_requirements(metadata, component_dir)`: resolve every dependency
entry in order — the first failing entry aborts the whole run — and validate
the collected document against `component_requirements_schema`. -/
def update_requirements (cenv : String → Option Component)
    (benv : String → Option String) (deps : List DepEntry) :
    Except UpdateErr (List Requirement) := do
  let reqs ← deps.mapM (resolveDependency cenv benv)
  if requirementsDocValid reqs then pure reqs else .error .invalidRequirements

/-- The `update-requirements` branch of `cli.dependency`, with the persisted
requirements file threaded explicitly: on a resolution error nothing is
written (the file keeps its prior contents and the error propagates); on
success the newly regenerated document replaces the file — and a commit is
made — only when it differs from the previously persisted one.  Returns the
outcome, the final file contents, and whether a write/commit happened. -/
def dependency_update_requirements (cenv : String → Option Component)
    (benv : String → Option String) (deps : List DepEntry)
    (existing : List Requirement) :
    Except UpdateErr (List Requirement) × List Requirement × Bool :=
  match update_requirements cenv benv deps with
  | .error e => (.error e, existing, false)
  | .ok reqs =>
    if reqs == existing then (.ok reqs, existing, false) else (.ok reqs, reqs, true)

/-! ## Derived predicates used by the statements -/

/-- Key comparison behind `Release.__le__` (derived by `total_ordering`);
`false` when a version does not parse. -/
def releaseLeB (r s : Release) : Bool :=
  match version_key r.version, version_key s.version with
  | some a, some b => vkeyLeB a b
  | _, _ => false

/-- Every release version matches the version grammar. -/
def allVersionsParse (rs : List Release) : Bool :=
  rs.all (fun r => (version_key r.version).isSome)

/-- The releases are in ascending version-key order (adjacent comparison). -/
def sortedAscByKeyB : List Release → Bool
  | [] => true
  | [_] => true
  | r :: s :: rest => releaseLeB r s && sortedAscByKeyB (s :: rest)

/-- The entity invariant of the claims: globally unique version ids and an
ascending version order. -/
def componentInvariantB (c : Component) : Bool :=
  allVersionsParse c.releases && sortedAscByKeyB c.releases &&
    allDistinct (c.releases.map (fun r => r.version))

/-- Strict version-string comparison through the sort keys. -/
def versionStrLtB (a b : String) : Bool :=
  match version_key a, version_key b with
  | some x, some y => vkeyLtB x y
  | _, _ => false

/-! ## Canonical form of an accepted version string

Dropping the optional leading `r` and the leading zeros of every numeric
segment; parsing and re-rendering an accepted string produces exactly this. -/

/-- Strip the leading zeros of a digit run, keeping a single `0` for an
all-zero run. -/
def stripZeros (run : List Char) : List Char :=
  match run.dropWhile (fun c => c == '0') with
  | [] => ['0']
  | l => l

/-- Strip the leading zeros of every maximal digit run of the text. -/
def stripRuns (l : List Char) : List Char :=
  match l with
  | [] => []
  | c :: rest =>
    if c.isDigit then
      stripZeros (c :: rest.takeWhile Char.isDigit) ++
        stripRuns (rest.dropWhile Char.isDigit)
    else c :: stripRuns rest
termination_by l.length
decreasing_by
  · have h : ∀ (l : List Char), (l.dropWhile Char.isDigit).length ≤ l.length := by
      intro l
      induction l with
      | nil => simp
      | cons a t ih =>
        by_cases hp : Char.isDigit a
        · simp [List.dropWhile_cons, hp]
          omega
        · simp [List.dropWhile_cons, hp]
    simpa using Nat.lt_succ_of_le (h rest)
  · simp

/-- The canonical form of a version string: optional leading `r` removed and
every numeric segment's leading zeros stripped. -/
def canonChars (l : List Char) : List Char := stripRuns (stripR l)

/-! ## The amended release-verification shape (claim C7)

`comparison_added_version_schema` restated in the amended claim's words. -/

/-- One series group as the amended claim describes it: only `series` and
`versions` entries, the optional `series` a nonempty string, and a one-entry
`versions` list whose entry is a schema-valid version/sha pair. -/
def amendedSeriesGroup (g : DocVal) : Bool :=
  match g with
  | .d gf =>
    allDistinct (keysOf gf) &&
      (keysOf gf).all (fun k => k == "series" || k == "versions") &&
      (match lookupField gf "series" with
       | some (.s sn) => !(sn == "")
       | some _ => false
       | none => true) &&
      (match lookupField gf "versions" with
       | some (.l [v]) => versionEntryValid v
       | _ => false)
  | _ => false

/-- The amended shape for `release`-mode verification: exactly one component
entry under a nonempty name, carrying exactly an `added` and a `deleted`
part, the `deleted` part empty, and the `added` part exactly a `releases`
list of exactly one amended series group. -/
def amendedReleaseShape (comparison : DocVal) : Bool :=
  match comparison with
  | .d [(name, .d f)] =>
    !(name == "") && exactKeys f ["added", "deleted"] &&
      (match lookupField f "deleted" with
       | some (.d []) => true
       | _ => false) &&
      (match lookupField f "added" with
       | some (.d fa) =>
         exactKeys fa ["releases"] &&
           (match lookupField fa "releases" with
            | some (.l [g]) => amendedSeriesGroup g
            | _ => false)
       | _ => false)
  | _ => false

/-! ## Concrete inputs used by the claims -/

/-- The twelve-release component of the resolver example (series `first`). -/
def exampleReleases : List Release :=
  [⟨"0.0.1", "0000000000000000000000000000000000000000", "first"⟩,
   ⟨"1.0.0", "0000000000000000000000000000000000000001", "first"⟩,
   ⟨"1.0.1", "0000000000000000000000000000000000000002", "first"⟩,
   ⟨"1.1.0", "0000000000000000000000000000000000000003", "first"⟩,
   ⟨"1.1.1", "0000000000000000000000000000000000000004", "first"⟩,
   ⟨"2.0.0-alpha.1", "0000000000000000000000000000000000000005", "first"⟩,
   ⟨"2.0.0-beta.1", "0000000000000000000000000000000000000006", "first"⟩,
   ⟨"2.0.0-beta.2", "0000000000000000000000000000000000000007", "first"⟩,
   ⟨"2.0.0-rc.1", "0000000000000000000000000000000000000007", "first"⟩,
   ⟨"2.0.0-rc.2", "0000000000000000000000000000000000000007", "first"⟩,
   ⟨"2.0.0", "0000000000000000000000000000000000000008", "first"⟩,
   ⟨"10.0.0", "0000000000000000000000000000000000000009", "first"⟩]

/-- The component of the resolver example. -/
def exampleComponent : Component :=
  { name := "test1", repo_url := "https://github.com/rcbops/test1",
    is_product := false, releases := exampleReleases }

/-- The requirement the resolver produces for version `v` with sha `sh` of
the example component. -/
def exampleRequirement (v sh : String) : Requirement :=
  { name := "test1", ref := some v, refIsTag := true,
    repo_url := "https://github.com/rcbops/test1", sha := sh, version := some v }

/-- The release `1.0.0` shared by the difference example. -/
def rel100 : Release := ⟨"1.0.0", "0000000000000000000000000000000000000000", "first"⟩

/-- The release `1.1.0` only component B has. -/
def rel110 : Release := ⟨"1.1.0", "0000000000000000000000000000000000000001", "first"⟩

/-- Component A of the difference example: releases `{1.0.0}`. -/
def componentA : Component :=
  { name := "test1", repo_url := "https://github.com/rcbops/test1",
    is_product := false, releases := [rel100] }

/-- Component B of the difference example: releases `{1.0.0, 1.1.0}`. -/
def componentB : Component :=
  { name := "test1", repo_url := "https://github.com/rcbops/test1",
    is_product := false, releases := [rel100, rel110] }

/-- The fields of `buildComponentDoc`, for diffing the raw (unvalidated)
document forms. -/
def rawFields (c : Component) : List (String × DocVal) :=
  match buildComponentDoc c with
  | .d f => f
  | _ => []

/-- The diff the specification expects for `B.difference(A)`. -/
def expectedDiffBA : List (String × DocVal) :=
  [("releases", .l [.d [("versions", .l [.d [("version", .s "1.1.0"),
     ("sha", .s "0000000000000000000000000000000000000001")]])]])]

/-- A release-mode comparison map of exactly the claimed shape whose single
version entry is well-formed. -/
def goodComparison : DocVal :=
  .d [("test1", .d [
    ("added", .d [("releases", .l [.d [("versions", .l [.d [
      ("version", .s "1.1.0"),
      ("sha", .s "0000000000000000000000000000000000000001")]])]])]),
    ("deleted", .d [])])]

/-- A release-mode comparison map of exactly the claimed shape whose single
version entry is malformed (`version`/`sha` fail their regexes). -/
def badComparison : DocVal :=
  .d [("test1", .d [
    ("added", .d [("releases", .l [.d [("versions", .l [.d [
      ("version", .s "bogus"),
      ("sha", .s "xyz")]])]])]),
    ("deleted", .d [])])]

/-- A component directory whose single document fails schema validation. -/
def badFiles : List DocVal := [.d []]

/-! # Theorems

## Generic facts about the tuple order -/

theorem tupleLtB_trans : ∀ a b c : List Nat,
    tupleLtB a b = true → tupleLtB b c = true → tupleLtB a c = true := by
  intro a
  induction a with
  | nil =>
    intro b c hab hbc
    cases b with
    | nil => simp [tupleLtB] at hab
    | cons y ys =>
      cases c with
      | nil => simp [tupleLtB] at hbc
      | cons z zs => simp [tupleLtB]
  | cons x xs ih =>
    intro b c hab hbc
    cases b with
    | nil => simp [tupleLtB] at hab
    | cons y ys =>
      cases c with
      | nil => simp [tupleLtB] at hbc
      | cons z zs =>
        simp only [tupleLtB] at hab hbc ⊢
        split at hab
        · split at hbc
          · simp [show x < z by omega]
          · split at hbc
            · exact absurd hbc (by simp)
            · simp [show x < z by omega]
        · split at hab
          · exact absurd hab (by simp)
          · split at hbc
            · simp [show x < z by omega]
            · split at hbc
              · exact absurd hbc (by simp)
              · have hxz : ¬ x < z := by omega
                have hzx : ¬ z < x := by omega
                simp only [if_neg hxz, if_neg hzx]
                exact ih ys zs hab hbc

theorem tupleLeB_trans : ∀ a b c : List Nat,
    tupleLeB a b = true → tupleLeB b c = true → tupleLeB a c = true := by
  intro a
  induction a with
  | nil => intro b c _ _; simp [tupleLeB]
  | cons x xs ih =>
    intro b c hab hbc
    cases b with
    | nil => simp [tupleLeB] at hab
    | cons y ys =>
      cases c with
      | nil => simp [tupleLeB] at hbc
      | cons z zs =>
        simp only [tupleLeB] at hab hbc ⊢
        split at hab
        · split at hbc
          · simp [show x < z by omega]
          · split at hbc
            · exact absurd hbc (by simp)
            · simp [show x < z by omega]
        · split at hab
          · exact absurd hab (by simp)
          · split at hbc
            · simp [show x < z by omega]
            · split at hbc
              · exact absurd hbc (by simp)
              · have hxz : ¬ x < z := by omega
                have hzx : ¬ z < x := by omega
                simp only [if_neg hxz, if_neg hzx]
                exact ih ys zs hab hbc

theorem tupleLeB_refl : ∀ a : List Nat, tupleLeB a a = true := by
  intro a
  induction a with
  | nil => simp [tupleLeB]
  | cons x xs ih => simp [tupleLeB, ih]

theorem tupleLtB_le : ∀ a b : List Nat, tupleLtB a b = true → tupleLeB a b = true := by
  intro a
  induction a with
  | nil => intro b _; simp [tupleLeB]
  | cons x xs ih =>
    intro b h
    cases b with
    | nil => simp [tupleLtB] at h
    | cons y ys =>
      simp only [tupleLtB] at h
      simp only [tupleLeB]
      split at h
      · simp_all
      · split at h
        · exact absurd h (by simp)
        · simp_all

theorem tupleLtB_trichotomy : ∀ a b : List Nat, a.length = b.length →
    tupleLtB a b = true ∨ a = b ∨ tupleLtB b a = true := by
  intro a
  induction a with
  | nil =>
    intro b hlen
    cases b with
    | nil => right; left; rfl
    | cons y ys => simp at hlen
  | cons x xs ih =>
    intro b hlen
    cases b with
    | nil => simp at hlen
    | cons y ys =>
      rcases Nat.lt_trichotomy x y with hxy | hxy | hxy
      · left; simp [tupleLtB, hxy]
      · subst hxy
        rcases ih ys (by simpa using hlen) with h | h | h
        · left; simp [tupleLtB, h]
        · right; left; rw [h]
        · right; right; simp [tupleLtB, h]
      · right; right; simp [tupleLtB, hxy]

theorem vkey_toList_inj : ∀ a b : VKey, a.toList = b.toList → a = b := by
  intro a b h
  cases a; cases b
  simp [VKey.toList] at h
  simp [h]

/-! ## Digit strings: values, canonical digits and parsing -/

theorem isDigit_digitChar (d : Nat) (h : d < 10) : (digitChar d).isDigit = true := by
  interval_cases d <;> decide

theorem digitVal_digitChar (d : Nat) (h : d < 10) : digitVal (digitChar d) = d := by
  interval_cases d <;> decide

theorem toNat_bounds_of_isDigit (c : Char) (h : c.isDigit = true) :
    48 ≤ c.toNat ∧ c.toNat ≤ 57 := by
  simp [Char.isDigit] at h
  exact ⟨h.1, h.2⟩

theorem digitChar_digitVal (c : Char) (h : c.isDigit = true) :
    digitChar (digitVal c) = c := by
  have hb := toNat_bounds_of_isDigit c h
  have harith : 48 + (c.toNat - 48) = c.toNat := by omega
  simp [digitChar, digitVal, harith, Char.ofNat_toNat]

theorem digitVal_lt_ten (c : Char) (h : c.isDigit = true) : digitVal c < 10 := by
  have hb := toNat_bounds_of_isDigit c h
  simp [digitVal]
  omega

theorem digitVal_pos (c : Char) (h : c.isDigit = true) (hz : c ≠ '0') :
    1 ≤ digitVal c := by
  have hb := toNat_bounds_of_isDigit c h
  have : c.toNat ≠ 48 := by
    intro heq
    apply hz
    have := Char.ofNat_toNat c
    rw [heq] at this
    exact this.symm.trans rfl
  simp [digitVal]
  omega

/-- Splitting a string at the end of a digit run: `takeWhile`/`dropWhile`
recover the run and the remainder when the remainder does not begin with a
digit. -/
theorem takeWhile_dropWhile_split (p : Char → Bool) (xs ys : List Char)
    (hx : ∀ x ∈ xs, p x = true) (hy : ∀ y, ys.head? = some y → p y = false) :
    (xs ++ ys).takeWhile p = xs ∧ (xs ++ ys).dropWhile p = ys := by
  induction xs with
  | nil =>
    simp only [List.nil_append]
    cases ys with
    | nil => simp
    | cons y t =>
      have := hy y rfl
      simp [List.takeWhile_cons, List.dropWhile_cons, this]
  | cons x xs ih =>
    have hpx : p x = true := hx x (by simp)
    have := ih (fun a ha => hx a (by simp [ha]))
    simp [List.takeWhile_cons, List.dropWhile_cons, hpx, this.1, this.2]

theorem digitsVal_append_singleton (ds : List Char) (c : Char) :
    digitsVal (ds ++ [c]) = 10 * digitsVal ds + digitVal c := by
  simp [digitsVal, List.foldl_append]
  ring

theorem digitsVal_cons (c : Char) (ds : List Char) :
    digitsVal (c :: ds) = (c :: ds).foldl (fun a d => a * 10 + digitVal d) 0 := rfl

theorem foldl_digits_ge (ds : List Char) : ∀ a : Nat,
    a ≤ ds.foldl (fun a d => a * 10 + digitVal d) a := by
  induction ds with
  | nil => intro a; simp
  | cons c t ih =>
    intro a
    calc a ≤ a * 10 + digitVal c := by omega
    _ ≤ _ := by simpa using ih (a * 10 + digitVal c)

theorem digitsVal_pos_of_head_ne_zero (c : Char) (ds : List Char)
    (h : c.isDigit = true) (hz : c ≠ '0') : 1 ≤ digitsVal (c :: ds) := by
  have h1 : digitVal c ≤ digitsVal (c :: ds) := by
    have := foldl_digits_ge ds (digitVal c)
    simpa [digitsVal, List.foldl_cons] using this
  have := digitVal_pos c h hz
  omega

theorem digitsVal_zeros_prefix (zeros : List Char) (l : List Char)
    (hz : ∀ c ∈ zeros, c = '0') : digitsVal (zeros ++ l) = digitsVal l := by
  induction zeros with
  | nil => simp
  | cons c t ih =>
    have hc : c = '0' := hz c (by simp)
    subst hc
    have := ih (fun a ha => hz a (by simp [ha]))
    simpa [digitsVal, List.foldl_cons, digitVal] using this

theorem natDigits_ne_nil (n : Nat) : natDigits n ≠ [] := by
  rw [natDigits]
  split <;> simp

theorem natDigits_all_digits (n : Nat) : ∀ c ∈ natDigits n, c.isDigit = true := by
  induction n using Nat.strong_induction_on with
  | _ n ih =>
    rw [natDigits]
    split
    · intro c hc
      simp at hc
      subst hc
      exact isDigit_digitChar n (by omega)
    · intro c hc
      simp at hc
      rcases hc with hc | hc
      · have hdiv : n / 10 < n := Nat.div_lt_self (by omega) (by omega)
        exact ih (n / 10) hdiv c hc
      · subst hc
        exact isDigit_digitChar (n % 10) (Nat.mod_lt n (by omega))

theorem digitsVal_natDigits (n : Nat) : digitsVal (natDigits n) = n := by
  induction n using Nat.strong_induction_on with
  | _ n ih =>
    rw [natDigits]
    split
    · next h =>
      simpa [digitsVal, List.foldl_cons] using digitVal_digitChar n h
    · next h =>
      have hdiv : n / 10 < n := Nat.div_lt_self (by omega) (by omega)
      rw [digitsVal_append_singleton, ih (n / 10) hdiv,
        digitVal_digitChar (n % 10) (Nat.mod_lt n (by omega))]
      omega

theorem natDigits_head_ne_zero (n : Nat) (hn : n ≠ 0) :
    ∀ c, (natDigits n).head? = some c → c ≠ '0' := by
  induction n using Nat.strong_induction_on with
  | _ n ih =>
    rw [natDigits]
    split
    · next h =>
      intro c hc
      simp at hc
      subst hc
      intro habs
      have : digitVal (digitChar n) = digitVal '0' := by rw [habs]
      rw [digitVal_digitChar n h] at this
      simp [digitVal] at this
      exact hn this
    · next h =>
      intro c hc
      have hne := natDigits_ne_nil (n / 10)
      have hdiv : n / 10 < n := Nat.div_lt_self (by omega) (by omega)
      have hq : n / 10 ≠ 0 := by
        intro habs
        have : n < 10 := by omega
        exact h this
      apply ih (n / 10) hdiv hq
      cases hnd : natDigits (n / 10) with
      | nil => exact absurd hnd hne
      | cons d t =>
        rw [hnd] at hc
        simpa using hc

/-- A nonempty digit string with no leading zero (or the single digit `0`)
is exactly the canonical digits of its value. -/
theorem natDigits_digitsVal (ds : List Char) (hne : ds ≠ [])
    (hd : ∀ c ∈ ds, c.isDigit = true)
    (hz : ∀ c t, ds = c :: t → c = '0' → t = []) :
    natDigits (digitsVal ds) = ds := by
  induction ds using List.reverseRecOn with
  | nil => exact absurd rfl hne
  | append_singleton init c ihinit =>
    have hc : c.isDigit = true := hd c (by simp)
    cases hinit : init with
    | nil =>
      subst hinit
      have hlt : digitVal c < 10 := digitVal_lt_ten c hc
      simp only [List.nil_append]
      have hval : digitsVal [c] = digitVal c := by
        simp [digitsVal, List.foldl_cons]
      rw [hval, natDigits, dif_pos hlt, digitChar_digitVal c hc]
    | cons h0 t0 =>
      subst hinit
      have hh0 : h0.isDigit = true := hd h0 (by simp)
      have hh0z : h0 ≠ '0' := by
        intro habs
        have := hz h0 (t0 ++ [c]) (by simp) habs
        simp at this
      have hvinit : 1 ≤ digitsVal (h0 :: t0) :=
        digitsVal_pos_of_head_ne_zero h0 t0 hh0 hh0z
      have hvc : digitVal c < 10 := digitVal_lt_ten c hc
      rw [digitsVal_append_singleton]
      have hbig : ¬ (10 * digitsVal (h0 :: t0) + digitVal c < 10) := by omega
      rw [natDigits, dif_neg hbig]
      have hdivq : (10 * digitsVal (h0 :: t0) + digitVal c) / 10 = digitsVal (h0 :: t0) := by
        omega
      have hmodq : (10 * digitsVal (h0 :: t0) + digitVal c) % 10 = digitVal c := by
        omega
      rw [hdivq, hmodq, digitChar_digitVal c hc]
      congr 1
      apply ihinit (by simp) (fun a ha => hd a (by simp at ha ⊢; tauto))
      intro a t ha haz
      exfalso
      have : a = h0 := by
        have := congrArg List.head? ha
        simpa using this.symm
      exact hh0z (this ▸ haz)

/-! ## Canonical form lemmas -/

theorem dropWhile_head_not {p : Char → Bool} : ∀ (l : List Char) (x : Char) (xs : List Char),
    l.dropWhile p = x :: xs → p x = false := by
  intro l
  induction l with
  | nil => intro x xs h; simp at h
  | cons c t ih =>
    intro x xs h
    rw [List.dropWhile_cons] at h
    split at h
    · exact ih x xs h
    · next hc =>
      cases h
      simpa using hc

theorem mem_takeWhile_pred {p : Char → Bool} : ∀ (l : List Char) (x : Char),
    x ∈ l.takeWhile p → p x = true := by
  intro l
  induction l with
  | nil => intro x h; simp at h
  | cons c t ih =>
    intro x h
    rw [List.takeWhile_cons] at h
    split at h
    · next hc =>
      rcases List.mem_cons.mp h with h1 | h1
      · subst h1; exact hc
      · exact ih x h1
    · simp at h

/-- The canonical digits of a digit run's value are the run with its leading
zeros stripped. -/
theorem natDigits_digitsVal_stripZeros (ds : List Char) (_hne : ds ≠ [])
    (hd : ∀ c ∈ ds, c.isDigit = true) :
    natDigits (digitsVal ds) = stripZeros ds := by
  have hsplit := List.takeWhile_append_dropWhile (p := fun c => c == '0') (l := ds)
  have hzeros : ∀ c ∈ ds.takeWhile (fun c => c == '0'), c = '0' := by
    intro c hc
    have := mem_takeWhile_pred ds c hc
    simpa using this
  have hval : digitsVal ds = digitsVal (ds.dropWhile (fun c => c == '0')) := by
    conv_lhs => rw [← hsplit]
    exact digitsVal_zeros_prefix _ _ hzeros
  rw [stripZeros]
  cases hdz : ds.dropWhile (fun c => c == '0') with
  | nil =>
    have hall : digitsVal ds = 0 := by
      rw [hval, hdz]
      rfl
    rw [hall, natDigits]
    norm_num
    decide
  | cons h0 t0 =>
    have hh0 : (h0 == '0') = false := dropWhile_head_not ds h0 t0 hdz
    have hh0' : h0 ≠ '0' := by simpa using hh0
    have hmem : ∀ c ∈ h0 :: t0, c ∈ ds := by
      intro c hc
      rw [← hsplit, hdz]
      exact List.mem_append_right _ hc
    rw [hval, hdz]
    exact natDigits_digitsVal (h0 :: t0) (by simp)
      (fun c hc => hd c (hmem c hc))
      (fun c t hct hcz => by
        have : c = h0 := by
          have := congrArg List.head? hct
          simpa using this.symm
        exact absurd (this ▸ hcz) hh0')

theorem stripRuns_nil : stripRuns [] = [] := by
  rw [stripRuns]

theorem stripRuns_cons_nonDigit (c : Char) (l : List Char) (h : c.isDigit = false) :
    stripRuns (c :: l) = c :: stripRuns l := by
  rw [stripRuns, h]
  simp

/-- `stripRuns` across a maximal digit run followed by a non-digit (or
nothing). -/
theorem stripRuns_digit_run (ds rest : List Char) (hne : ds ≠ [])
    (hd : ∀ c ∈ ds, c.isDigit = true)
    (hrest : ∀ y, rest.head? = some y → y.isDigit = false) :
    stripRuns (ds ++ rest) = stripZeros ds ++ stripRuns rest := by
  cases ds with
  | nil => exact absurd rfl hne
  | cons c ds' =>
    have hc : c.isDigit = true := hd c (by simp)
    have hsplit := takeWhile_dropWhile_split Char.isDigit ds' rest
      (fun a ha => hd a (by simp [ha])) hrest
    rw [List.cons_append, stripRuns, hc]
    simp only [if_pos]
    rw [hsplit.1, hsplit.2]

theorem stripRuns_append_nonDigits (xs rest : List Char)
    (h : ∀ c ∈ xs, c.isDigit = false) :
    stripRuns (xs ++ rest) = xs ++ stripRuns rest := by
  induction xs with
  | nil => simp
  | cons c t ih =>
    have hc : c.isDigit = false := h c (by simp)
    rw [List.cons_append, stripRuns_cons_nonDigit c _ hc,
      ih (fun a ha => h a (by simp [ha]))]
    simp

/-! ## Parsing lemmas -/

theorem parseDigits_inv (l : List Char) (n : Nat) (rest : List Char)
    (h : parseDigits l = some (n, rest)) :
    l = l.takeWhile Char.isDigit ++ rest ∧ l.takeWhile Char.isDigit ≠ [] ∧
      (∀ c ∈ l.takeWhile Char.isDigit, c.isDigit = true) ∧
      digitsVal (l.takeWhile Char.isDigit) = n ∧
      (∀ y, rest.head? = some y → y.isDigit = false) := by
  rw [parseDigits] at h
  split at h
  · exact absurd h (by simp)
  · next hne =>
    simp only [Option.some.injEq, Prod.mk.injEq] at h
    obtain ⟨hn, hrest⟩ := h
    refine ⟨?_, ?_, ?_, hn, ?_⟩
    · rw [← hrest]
      exact (List.takeWhile_append_dropWhile Char.isDigit l).symm
    · simpa [List.isEmpty_iff] using hne
    · exact fun c hc => mem_takeWhile_pred l c hc
    · intro y hy
      rw [← hrest] at hy
      cases hdw : l.dropWhile Char.isDigit with
      | nil => rw [hdw] at hy; simp at hy
      | cons z zs =>
        rw [hdw] at hy
        simp at hy
        subst hy
        exact dropWhile_head_not l z zs hdw

theorem parseDigits_render (n : Nat) (rest : List Char)
    (hrest : ∀ y, rest.head? = some y → y.isDigit = false) :
    parseDigits (natDigits n ++ rest) = some (n, rest) := by
  have hsplit := takeWhile_dropWhile_split Char.isDigit (natDigits n) rest
    (natDigits_all_digits n) hrest
  rw [parseDigits]
  rw [hsplit.1, hsplit.2]
  have hne : (natDigits n).isEmpty = false := by
    cases hnd : natDigits n with
    | nil => exact absurd hnd (natDigits_ne_nil n)
    | cons c t => rfl
  rw [hne]
  simp [digitsVal_natDigits]

/-! ## Parser inversion and round-trip lemmas -/

theorem consumeChar_inv (ch : Char) (l rest : List Char)
    (h : consumeChar ch l = some rest) : l = ch :: rest := by
  cases l with
  | nil => simp [consumeChar] at h
  | cons c t =>
    rw [consumeChar] at h
    split at h
    · next hc => cases h; rw [hc]
    · exact absurd h (by simp)

theorem parseChanTag_inv (l : List Char) (rank : Nat) (r : List Char)
    (h : parseChanTag l = some (rank, r)) :
    rank < 3 ∧ l = chanName rank ++ r := by
  rw [parseChanTag.eq_def] at h
  split at h <;> simp_all <;> simp [← h.1, chanName, h.2]

theorem parseChannel_inv (l : List Char) (rank cv : Nat)
    (h : parseChannel l = some (rank, cv)) :
    (l = [] ∧ rank = 3 ∧ cv = 0) ∨
      (∃ dscv, l = '-' :: chanName rank ++ '.' :: dscv ∧ rank < 3 ∧ dscv ≠ [] ∧
        (∀ c ∈ dscv, c.isDigit = true) ∧ digitsVal dscv = cv) := by
  cases l with
  | nil =>
    rw [parseChannel] at h
    simp at h
    left
    exact ⟨rfl, h.1.symm, h.2.symm⟩
  | cons c rest =>
    right
    rw [parseChannel] at h
    simp only [Option.bind_eq_bind] at h
    cases h1 : consumeChar '-' (c :: rest) with
    | none => rw [h1] at h; simp at h
    | some l1 =>
      rw [h1] at h
      simp only [Option.some_bind] at h
      cases h2 : parseChanTag l1 with
      | none => rw [h2] at h; simp at h
      | some pr =>
        obtain ⟨rank0, l2⟩ := pr
        rw [h2] at h
        simp only [Option.some_bind] at h
        cases h3 : consumeChar '.' l2 with
        | none => rw [h3] at h; simp at h
        | some l3 =>
          rw [h3] at h
          simp only [Option.some_bind] at h
          cases h4 : parseDigits l3 with
          | none => rw [h4] at h; simp at h
          | some pr2 =>
            obtain ⟨n, rr⟩ := pr2
            rw [h4] at h
            cases rr with
            | cons z zs => simp at h
            | nil =>
              simp at h
              obtain ⟨hrank, hcv⟩ := h
              subst hrank hcv
              have hc1 := consumeChar_inv '-' _ _ h1
              have hc2 := parseChanTag_inv _ _ _ h2
              have hc3 := consumeChar_inv '.' _ _ h3
              have hc4 := parseDigits_inv _ _ _ h4
              have hl3 : l3 = l3.takeWhile Char.isDigit := by
                have := hc4.1
                simpa using this
              refine ⟨l3, ?_, hc2.1, ?_, ?_, ?_⟩
              · rw [hc1, hc2.2, hc3]
                simp
              · intro habs
                exact hc4.2.1 (by rw [habs]; simp)
              · intro a ha
                exact hc4.2.2.1 a (hl3 ▸ ha)
              · rw [hl3]
                exact hc4.2.2.2.1

theorem parseVersionCore_inv (l : List Char) (k : VKey)
    (h : parseVersionCore l = some k) :
    ∃ dsM dsm dsp tail,
      l = dsM ++ '.' :: dsm ++ '.' :: dsp ++ tail ∧
      dsM ≠ [] ∧ (∀ c ∈ dsM, c.isDigit = true) ∧ digitsVal dsM = k.major ∧
      dsm ≠ [] ∧ (∀ c ∈ dsm, c.isDigit = true) ∧ digitsVal dsm = k.minor ∧
      dsp ≠ [] ∧ (∀ c ∈ dsp, c.isDigit = true) ∧ digitsVal dsp = k.patch ∧
      ((tail = [] ∧ k.chRank = 3 ∧ k.chVer = 0) ∨
       (∃ dscv, tail = '-' :: chanName k.chRank ++ '.' :: dscv ∧ k.chRank < 3 ∧
         dscv ≠ [] ∧ (∀ c ∈ dscv, c.isDigit = true) ∧ digitsVal dscv = k.chVer)) := by
  rw [parseVersionCore] at h
  simp only [Option.bind_eq_bind] at h
  cases h1 : parseDigits l with
  | none => rw [h1] at h; simp at h
  | some p1 =>
    obtain ⟨M, l1⟩ := p1
    rw [h1] at h
    simp only [Option.some_bind] at h
    cases h2 : consumeChar '.' l1 with
    | none => rw [h2] at h; simp at h
    | some l2 =>
      rw [h2] at h
      simp only [Option.some_bind] at h
      cases h3 : parseDigits l2 with
      | none => rw [h3] at h; simp at h
      | some p2 =>
        obtain ⟨m, l3⟩ := p2
        rw [h3] at h
        simp only [Option.some_bind] at h
        cases h4 : consumeChar '.' l3 with
        | none => rw [h4] at h; simp at h
        | some l4 =>
          rw [h4] at h
          simp only [Option.some_bind] at h
          cases h5 : parseDigits l4 with
          | none => rw [h5] at h; simp at h
          | some p3 =>
            obtain ⟨p, l5⟩ := p3
            rw [h5] at h
            simp only [Option.some_bind] at h
            cases h6 : parseChannel l5 with
            | none => rw [h6] at h; simp at h
            | some p4 =>
              obtain ⟨rank, cv⟩ := p4
              rw [h6] at h
              simp only [Option.some_bind, Option.pure_def, Option.some.injEq] at h
              subst h
              have i1 := parseDigits_inv _ _ _ h1
              have i2 := consumeChar_inv _ _ _ h2
              have i3 := parseDigits_inv _ _ _ h3
              have i4 := consumeChar_inv _ _ _ h4
              have i5 := parseDigits_inv _ _ _ h5
              have i6 := parseChannel_inv _ _ _ h6
              refine ⟨l.takeWhile Char.isDigit, l2.takeWhile Char.isDigit,
                l4.takeWhile Char.isDigit, l5, ?_, i1.2.1, i1.2.2.1, i1.2.2.2.1,
                i3.2.1, i3.2.2.1, i3.2.2.2.1, i5.2.1, i5.2.2.1, i5.2.2.2.1, ?_⟩
              · conv_lhs => rw [i1.1, i2, i3.1, i4, i5.1]
                simp
              · simpa using i6

theorem chanName_nonDigit (rank : Nat) : ∀ c ∈ chanName rank, c.isDigit = false := by
  intro c hc
  rw [chanName] at hc
  split at hc
  · simp at hc
    rcases hc with rfl | rfl | rfl | rfl | rfl <;> decide
  · split at hc
    · simp at hc
      rcases hc with rfl | rfl | rfl | rfl <;> decide
    · simp at hc
      rcases hc with rfl | rfl <;> decide

theorem ne_r_of_isDigit (c : Char) (h : c.isDigit = true) : c ≠ 'r' := by
  intro habs
  rw [habs] at h
  exact absurd h (by decide)

theorem stripR_digit_head (c : Char) (t : List Char) (h : c.isDigit = true) :
    stripR (c :: t) = c :: t := by
  rw [stripR, if_neg (ne_r_of_isDigit c h)]

/-- Parsing the rendered string of a parsed key gives back the key. -/
theorem render_parse (k : VKey)
    (hwf : k.chRank = 3 ∧ k.chVer = 0 ∨ k.chRank < 3) :
    version_key (renderVKey k) = some k := by
  have hchan : parseChannel (if k.chRank = 3 then ([] : List Char)
      else '-' :: chanName k.chRank ++ '.' :: natDigits k.chVer) = some (k.chRank, k.chVer) := by
    rcases hwf with ⟨h3, h0⟩ | hlt
    · rw [if_pos h3, parseChannel, h3, h0]
    · have hne : k.chRank ≠ 3 := by omega
      rw [if_neg hne]
      rw [parseChannel.eq_def]
      simp only [Option.bind_eq_bind]
      have hcc : consumeChar '-' ('-' :: (chanName k.chRank ++ '.' :: natDigits k.chVer)) =
          some (chanName k.chRank ++ '.' :: natDigits k.chVer) := by
        rw [consumeChar, if_pos rfl]
      have htag : parseChanTag (chanName k.chRank ++ '.' :: natDigits k.chVer) =
          some (k.chRank, '.' :: natDigits k.chVer) := by
        interval_cases hr : k.chRank
        · simp [chanName, parseChanTag]
        · simp [chanName, parseChanTag]
        · simp [chanName, parseChanTag]
      have hdot : consumeChar '.' ('.' :: natDigits k.chVer) = some (natDigits k.chVer) := by
        rw [consumeChar, if_pos rfl]
      have hdig : parseDigits (natDigits k.chVer ++ []) = some (k.chVer, []) :=
        parseDigits_render k.chVer [] (by intro y hy; simp at hy)
      simp only [List.cons_append] at *
      rw [hcc]
      simp only [Option.some_bind]
      rw [htag]
      simp only [Option.some_bind]
      rw [hdot]
      simp only [Option.some_bind]
      have hdig2 : parseDigits (natDigits k.chVer) = some (k.chVer, []) := by
        simpa using hdig
      rw [hdig2]
  set ch : List Char := (if k.chRank = 3 then ([] : List Char)
    else '-' :: chanName k.chRank ++ '.' :: natDigits k.chVer) with hchdef
  have hchhead : ∀ y, ch.head? = some y → y.isDigit = false := by
    intro y hy
    rw [hchdef] at hy
    split at hy
    · simp at hy
    · simp at hy
      exact hy ▸ (by decide)
  have hdata : (renderVKey k).data =
      natDigits k.major ++ '.' :: (natDigits k.minor ++ '.' :: (natDigits k.patch ++ ch)) := by
    rw [renderVKey]
    simp
    rw [hchdef]
    split <;> simp
  have hstrip : stripR ((renderVKey k).data) = (renderVKey k).data := by
    rw [hdata]
    cases hM : natDigits k.major with
    | nil => exact absurd hM (natDigits_ne_nil _)
    | cons c t =>
      have hc : c.isDigit = true := natDigits_all_digits k.major c (by rw [hM]; simp)
      rw [List.cons_append, stripR_digit_head c _ hc]
  rw [version_key, hstrip, hdata]
  have h1 : parseDigits (natDigits k.major ++
      '.' :: (natDigits k.minor ++ '.' :: (natDigits k.patch ++ ch))) =
      some (k.major, '.' :: (natDigits k.minor ++ '.' :: (natDigits k.patch ++ ch))) :=
    parseDigits_render _ _ (by intro y hy; simp at hy; rw [← hy]; decide)
  have h2 : consumeChar '.' ('.' :: (natDigits k.minor ++ '.' :: (natDigits k.patch ++ ch))) =
      some (natDigits k.minor ++ '.' :: (natDigits k.patch ++ ch)) := by
    rw [consumeChar, if_pos rfl]
  have h3 : parseDigits (natDigits k.minor ++ '.' :: (natDigits k.patch ++ ch)) =
      some (k.minor, '.' :: (natDigits k.patch ++ ch)) :=
    parseDigits_render _ _ (by intro y hy; simp at hy; rw [← hy]; decide)
  have h4 : consumeChar '.' ('.' :: (natDigits k.patch ++ ch)) =
      some (natDigits k.patch ++ ch) := by
    rw [consumeChar, if_pos rfl]
  have h5 : parseDigits (natDigits k.patch ++ ch) = some (k.patch, ch) :=
    parseDigits_render _ _ hchhead
  rw [parseVersionCore]
  simp only [Option.bind_eq_bind]
  rw [h1]
  simp only [Option.some_bind]
  rw [h2]
  simp only [Option.some_bind]
  rw [h3]
  simp only [Option.some_bind]
  rw [h4]
  simp only [Option.some_bind]
  rw [h5]
  simp only [Option.some_bind]
  rw [hchan]
  simp

/-- Rendering the key parsed from an accepted string produces exactly the
string's canonical form. -/
theorem parse_render_canon (l : List Char) (k : VKey)
    (h : parseVersionCore l = some k) :
    (renderVKey k).data = stripRuns l := by
  obtain ⟨dsM, dsm, dsp, tail, hl, hM1, hM2, hM3, hm1, hm2, hm3, hp1, hp2, hp3, hch⟩ :=
    parseVersionCore_inv l k h
  have htailhead : ∀ y, tail.head? = some y → y.isDigit = false := by
    rcases hch with ⟨htail, _, _⟩ | ⟨dscv, htail, _⟩ <;> rw [htail]
    · intro y hy; simp at hy
    · intro y hy
      simp at hy
      exact hy ▸ (by decide)
  have hstrip : stripRuns l =
      stripZeros dsM ++ '.' :: (stripZeros dsm ++ '.' :: (stripZeros dsp ++ stripRuns tail)) := by
    rw [hl]
    simp only [List.cons_append, List.append_assoc]
    rw [stripRuns_digit_run dsM _ hM1 hM2 (by intro y hy; simp at hy; exact hy ▸ (by decide))]
    rw [stripRuns_cons_nonDigit '.' _ (by decide)]
    rw [stripRuns_digit_run dsm _ hm1 hm2 (by intro y hy; simp at hy; exact hy ▸ (by decide))]
    rw [stripRuns_cons_nonDigit '.' _ (by decide)]
    rw [stripRuns_digit_run dsp _ hp1 hp2 htailhead]
  rw [hstrip]
  have hM : natDigits k.major = stripZeros dsM := by
    rw [← hM3]; exact natDigits_digitsVal_stripZeros dsM hM1 hM2
  have hm : natDigits k.minor = stripZeros dsm := by
    rw [← hm3]; exact natDigits_digitsVal_stripZeros dsm hm1 hm2
  have hp : natDigits k.patch = stripZeros dsp := by
    rw [← hp3]; exact natDigits_digitsVal_stripZeros dsp hp1 hp2
  rcases hch with ⟨htail, hrank, _⟩ | ⟨dscv, htail, hrank, hcv1, hcv2, hcv3⟩
  · rw [renderVKey]
    simp only [if_pos hrank]
    rw [htail, stripRuns_nil, hM, hm, hp]
    simp
  · have hrank' : k.chRank ≠ 3 := by omega
    rw [renderVKey]
    simp only [if_neg hrank']
    have hcv : natDigits k.chVer = stripZeros dscv := by
      rw [← hcv3]; exact natDigits_digitsVal_stripZeros dscv hcv1 hcv2
    rw [htail]
    simp only [List.cons_append, List.append_assoc]
    rw [stripRuns_cons_nonDigit '-' _ (by decide)]
    rw [stripRuns_append_nonDigits (chanName k.chRank) _ (chanName_nonDigit k.chRank)]
    rw [stripRuns_cons_nonDigit '.' _ (by decide)]
    have hdscv : stripRuns dscv = stripZeros dscv := by
      have hx := stripRuns_digit_run dscv [] hcv1 hcv2 (by intro y hy; simp at hy)
      rw [stripRuns_nil] at hx
      simpa using hx
    rw [hdscv, hM, hm, hp, hcv]

/-- Keys produced by parsing carry a channel rank of 0–3 with channel
version 0 for plain releases. -/
theorem version_key_wf (s : String) (k : VKey) (h : version_key s = some k) :
    k.chRank = 3 ∧ k.chVer = 0 ∨ k.chRank < 3 := by
  obtain ⟨_, _, _, _, _, _, _, _, _, _, _, _, _, _, hch⟩ := parseVersionCore_inv _ k h
  rcases hch with ⟨_, h3, h0⟩ | ⟨_, _, hlt, _⟩
  · exact Or.inl ⟨h3, h0⟩
  · exact Or.inr hlt

/-! ## Claim C5: parse/render round trip -/

/-- C5 counterexample: the grammar accepts `r1.0.0`, whose sort key renders
back as `1.0.0`, so the round trip is not byte-for-byte on every accepted
string. -/
theorem c5_roundtrip_counterexample :
    version_key "r1.0.0" = some ⟨1, 0, 0, 3, 0⟩ ∧
      renderVKey ⟨1, 0, 0, 3, 0⟩ = "1.0.0" ∧ ("r1.0.0" : String) ≠ "1.0.0" := by
  refine ⟨rfl, ?_, by decide⟩
  simp [renderVKey, natDigits]
  decide

/-- C5 (amended): for every string accepted by the version grammar,
reconstructing `major.minor.patch[-channel.n]` from its sort key yields the
string's canonical form — the optional leading `r` removed and each numeric
segment's leading zeros stripped — and that reconstruction is itself accepted
by the grammar with the same sort key; the round trip is byte-for-byte
exactly on strings already in canonical form. -/
theorem c5_parse_render_roundtrip (s : String) (k : VKey)
    (h : version_key s = some k) :
    renderVKey k = String.mk (canonChars s.data) ∧
      version_key (renderVKey k) = some k := by
  constructor
  · have h2 : (renderVKey k).data = canonChars s.data := parse_render_canon (stripR s.data) k h
    calc renderVKey k = String.mk ((renderVKey k).data) := rfl
    _ = String.mk (canonChars s.data) := by rw [h2]
  · exact render_parse k (version_key_wf s k h)

/-- C5 witness: the round trip at the canonical string `1.0.0`. -/
theorem c5_parse_render_roundtrip_witness :
    version_key "1.0.0" = some ⟨1, 0, 0, 3, 0⟩ ∧
      (renderVKey ⟨1, 0, 0, 3, 0⟩ = String.mk (canonChars "1.0.0".data) ∧
        version_key (renderVKey ⟨1, 0, 0, 3, 0⟩) = some ⟨1, 0, 0, 3, 0⟩) :=
  ⟨rfl, c5_parse_render_roundtrip "1.0.0" ⟨1, 0, 0, 3, 0⟩ rfl⟩

/-! ## Claim C2: the version order -/

/-- C2 counterexample: `r1.0.0` and `01.0.0` are valid version strings with
the same sort key as `1.0.0` while their string forms differ, so two version
identifiers are not equal exactly when their string forms are equal: the key
order cannot tell these distinct strings apart. -/
theorem c2_version_order_counterexample :
    version_key "r1.0.0" = version_key "1.0.0" ∧ ("r1.0.0" : String) ≠ "1.0.0" ∧
      version_key "01.0.0" = version_key "1.0.0" ∧ ("01.0.0" : String) ≠ "1.0.0" ∧
      versionStrLtB "r1.0.0" "1.0.0" = false ∧ versionStrLtB "1.0.0" "r1.0.0" = false :=
  ⟨rfl, by decide, rfl, by decide, rfl, rfl⟩

/-- C2 (amended): lexicographic comparison of the 5-tuple sort keys
`(major, minor, patch, channel_rank, channel_version)` is transitive and
total (any two keys are ordered or equal), numeric segments compare as
integers, and the claimed chains hold; key equality coincides with string
equality on canonical version strings (strings that are the rendering of
their own key) — on non-canonical strings such as `r1.0.0` distinct strings
share a key. -/
theorem c2_version_order_total :
    (∀ a b c : VKey, vkeyLtB a b = true → vkeyLtB b c = true → vkeyLtB a c = true) ∧
      (∀ a b : VKey, vkeyLtB a b = true ∨ a = b ∨ vkeyLtB b a = true) ∧
      (∀ (s1 s2 : String) (k1 k2 : VKey), version_key s1 = some k1 →
        version_key s2 = some k2 → renderVKey k1 = s1 → renderVKey k2 = s2 →
        (k1 = k2 ↔ s1 = s2)) ∧
      (versionStrLtB "1.0.0" "1.1.0" = true ∧ versionStrLtB "1.1.0" "1.1.2" = true ∧
        versionStrLtB "1.1.2" "1.1.10" = true ∧ versionStrLtB "1.1.10" "2.0.0" = true ∧
        versionStrLtB "2.0.0-alpha.1" "2.0.0-beta.1" = true ∧
        versionStrLtB "2.0.0-beta.1" "2.0.0-beta.2" = true ∧
        versionStrLtB "2.0.0-beta.2" "2.0.0-rc.1" = true ∧
        versionStrLtB "2.0.0-rc.1" "2.0.0-rc.2" = true ∧
        versionStrLtB "2.0.0-rc.2" "2.0.0" = true) := by
  refine ⟨?_, ?_, ?_, rfl, rfl, rfl, rfl, rfl, rfl, rfl, rfl, rfl⟩
  · intro a b c hab hbc
    exact tupleLtB_trans a.toList b.toList c.toList hab hbc
  · intro a b
    rcases tupleLtB_trichotomy a.toList b.toList (by simp [VKey.toList]) with h | h | h
    · exact Or.inl h
    · exact Or.inr (Or.inl (vkey_toList_inj a b h))
    · exact Or.inr (Or.inr h)
  · intro s1 s2 k1 k2 h1 h2 hr1 hr2
    constructor
    · intro hk
      rw [← hr1, ← hr2, hk]
    · intro hs
      rw [hs] at h1
      rw [h1] at h2
      exact (Option.some.injEq _ _).mp h2.symm |>.symm

/-- C2 witness: the canonical-equality part evaluated at `1.0.0` and
`1.1.0`. -/
theorem c2_version_order_total_witness :
    (⟨1, 0, 0, 3, 0⟩ : VKey) = ⟨1, 1, 0, 3, 0⟩ ↔ ("1.0.0" : String) = "1.1.0" :=
  c2_version_order_total.2.2.1 "1.0.0" "1.1.0" ⟨1, 0, 0, 3, 0⟩ ⟨1, 1, 0, 3, 0⟩ rfl rfl
    (by simp [renderVKey, natDigits]; decide) (by simp [renderVKey, natDigits]; decide)

/-! ## Claim C9: `get_release` -/

theorem getReleaseFindLoop_absent (v : String) : ∀ rs : List Release,
    (∀ r ∈ rs, r.version ≠ v) →
    getReleaseFindLoop v rs = .error ("Release with version " ++ v ++ " does not exist") := by
  intro rs
  induction rs with
  | nil => intro _; rfl
  | cons r rest ih =>
    intro h
    rw [getReleaseFindLoop]
    have : (r.version == v) = false := by
      simpa using h r (by simp)
    rw [this]
    simp only [Bool.false_eq_true, if_false]
    exact ih (fun q hq => h q (by simp [hq]))

theorem getReleasePredLoop_absent (v : String) : ∀ (rs : List Release) (pred : Option Release),
    (∀ r ∈ rs, r.version ≠ v) →
    getReleasePredLoop v pred rs = .error ("Release with version " ++ v ++ " does not exist") := by
  intro rs
  induction rs with
  | nil => intro _ _; rfl
  | cons r rest ih =>
    intro pred h
    rw [getReleasePredLoop]
    have : (r.version == v) = false := by
      simpa using h r (by simp)
    rw [this]
    simp only [Bool.false_eq_true, if_false]
    exact ih (some r) (fun q hq => h q (by simp [hq]))

theorem getReleaseFindLoop_found (v : String) : ∀ (pre : List Release) (r : Release)
    (post : List Release), r.version = v → (∀ p ∈ pre, p.version ≠ v) →
    getReleaseFindLoop v (pre ++ r :: post) = .ok r := by
  intro pre
  induction pre with
  | nil =>
    intro r post hr _
    rw [List.nil_append, getReleaseFindLoop]
    simp [hr]
  | cons q pre' ih =>
    intro r post hr h
    rw [List.cons_append, getReleaseFindLoop]
    have : (q.version == v) = false := by
      simpa using h q (by simp)
    rw [this]
    simp only [Bool.false_eq_true, if_false]
    exact ih r post hr (fun p hp => h p (by simp [hp]))

theorem getReleasePredLoop_found (v : String) (p r : Release) (post : List Release)
    (hp : p.version ≠ v) (hr : r.version = v) : ∀ (pre : List Release) (pred : Option Release),
    (∀ q ∈ pre, q.version ≠ v) →
    getReleasePredLoop v pred (pre ++ p :: r :: post) = .ok p := by
  intro pre
  induction pre with
  | nil =>
    intro pred _
    rw [List.nil_append, getReleasePredLoop]
    have : (p.version == v) = false := by simpa using hp
    rw [this]
    simp only [Bool.false_eq_true, if_false]
    rw [getReleasePredLoop]
    simp [hr]
  | cons q pre' ih =>
    intro pred h
    rw [List.cons_append, getReleasePredLoop]
    have : (q.version == v) = false := by
      simpa using h q (by simp)
    rw [this]
    simp only [Bool.false_eq_true, if_false]
    exact ih (some q) (fun x hx => h x (by simp [hx]))

/-- C9: `get_release(version)` returns the release whose version string
matches exactly and fails with the not-found error when absent (in either
mode); with `predecessor=true` it returns the release immediately preceding
the matched one in the component's ascending release list, fails with the
no-predecessor error when the match is the first release, and fails with the
not-found error when the version is absent; in particular on releases
`{1.0.0, 1.1.0}`, `get_release("1.1.0", predecessor=true)` returns `1.0.0`. -/
theorem c9_get_release_spec :
    (∀ (c : Component) (v : String), (∀ r ∈ c.releases, r.version ≠ v) →
      get_release c v false = .error ("Release with version " ++ v ++ " does not exist") ∧
      get_release c v true = .error ("Release with version " ++ v ++ " does not exist")) ∧
    (∀ (c : Component) (v : String) (pre : List Release) (r : Release) (post : List Release),
      c.releases = pre ++ r :: post → r.version = v → (∀ p ∈ pre, p.version ≠ v) →
      get_release c v false = .ok r) ∧
    (∀ (c : Component) (v : String) (r : Release) (post : List Release),
      c.releases = r :: post → r.version = v →
      get_release c v true =
        .error ("Release with version " ++ v ++ " does not have a predecessor.")) ∧
    (∀ (c : Component) (v : String) (pre : List Release) (p r : Release)
      (post : List Release), c.releases = pre ++ p :: r :: post → r.version = v →
      p.version ≠ v → (∀ q ∈ pre, q.version ≠ v) →
      get_release c v true = .ok p) ∧
    (get_release componentB "1.1.0" true = .ok rel100 ∧
      get_release componentB "1.0.0" true =
        .error "Release with version 1.0.0 does not have a predecessor." ∧
      get_release componentB "1.1.0" false = .ok rel110 ∧
      get_release componentB "2.0.0" false =
        .error "Release with version 2.0.0 does not exist") := by
  refine ⟨?_, ?_, ?_, ?_, rfl, rfl, rfl, rfl⟩
  · intro c v h
    exact ⟨getReleaseFindLoop_absent v c.releases h,
      getReleasePredLoop_absent v c.releases none h⟩
  · intro c v pre r post hc hr h
    rw [get_release]
    simp only [Bool.false_eq_true, if_false]
    rw [hc]
    exact getReleaseFindLoop_found v pre r post hr h
  · intro c v r post hc hr
    rw [get_release]
    simp only [if_true]
    rw [hc, getReleasePredLoop]
    simp [hr]
  · intro c v pre p r post hc hr hp h
    rw [get_release]
    simp only [if_true]
    rw [hc]
    exact getReleasePredLoop_found v p r post hp hr pre none h

/-- C9 witness: the predecessor lookup on the two-release component. -/
theorem c9_get_release_spec_witness :
    get_release componentB "1.1.0" true = .ok rel100 :=
  c9_get_release_spec.2.2.2.1 componentB "1.1.0" [] rel100 rel110 [] rfl rfl
    (by decide) (by simp)

/-! ## Claim C10: the branch resolver mutates its input list -/

/-- C10: resolving a single-element branch-pin constraint list pops the
constraint off the caller's list: on success the requirement is the branch
pin (ref the branch name, no version) and the caller-visible list is empty
afterwards. -/
theorem c10_branch_pop_mutates (resolveBranch : String → Option String)
    (c : Component) (con bn sha : String) (hb : branchNameOf con = some bn)
    (hs : resolveBranch bn = some sha) :
    requirement_from_branch_constraints resolveBranch c [con] =
      .ok ({ name := c.name, ref := some bn, refIsTag := false,
             repo_url := c.repo_url, sha := sha, version := none },
           ([] : List String)) := by
  simp [requirement_from_branch_constraints, hb, hs]

/-- C10 witness: the branch pin `branch==master` resolved against a stub
clone, leaving the constraint list empty. -/
theorem c10_branch_pop_mutates_witness :
    requirement_from_branch_constraints
        (fun _ => some "0000000000000000000000000000000000001000")
        componentA ["branch==master"] =
      .ok ({ name := componentA.name, ref := some "master", refIsTag := false,
             repo_url := componentA.repo_url,
             sha := "0000000000000000000000000000000000001000", version := none },
           ([] : List String)) :=
  c10_branch_pop_mutates (fun _ => some "0000000000000000000000000000000000001000")
    componentA "branch==master" "master" "0000000000000000000000000000000000001000"
    rfl rfl

/-! ## Claim C3: entity invariant versus serialization -/

/-- C3: evaluated at the failing input — the component built from the
release dicts `1.0.0` and `1.1.0` of series `first`.  Construction succeeds
and maintains the claimed invariant (all versions parse, ascending version
order, globally unique version ids), and `add_release` rejects a duplicate
version even in another series; but serializing the component fails:
`to_dict` raises a `SchemaError` (`none`) because the document it builds
lists the versions in ascending order while `is_sorted_versions` in
`component_schema` demands descending order (`sorted(..., reverse=True)`). -/
theorem c3_invariant_but_to_dict_fails :
    componentNew "test1" "https://github.com/rcbops/test1" false [rel100, rel110] =
      .ok componentB ∧
    componentInvariantB componentB = true ∧
    add_release componentB ⟨"1.0.0", "0000000000000000000000000000000000000002", "other"⟩ =
      .error "Release with version 1.0.0 already exists." ∧
    to_dict componentB = none ∧
    componentSchemaValid (buildComponentDoc componentB) = false ∧
    to_dict componentA = some (buildComponentDoc componentA) :=
  ⟨rfl, rfl, rfl, rfl, rfl, rfl⟩

/-! ## Claim C6: `Component.difference` -/

/-- C6: evaluated at the claim's example.  The diff algorithm itself
(`_difference` applied to the raw document forms) produces exactly
`{releases: [{versions: [the 1.1.0 entry]}]}` for B against A and the empty
mapping for A against B, as the claim states; but `Component.difference`
first serializes both components and `to_dict` on the two-release component
raises (the descending-order schema check), so both `B.difference(A)` and
`A.difference(B)` raise instead of returning the diff. -/
theorem c6_difference_example :
    diffDict diffFuel (rawFields componentB) (rawFields componentA) =
      some expectedDiffBA ∧
    diffDict diffFuel (rawFields componentA) (rawFields componentB) = some [] ∧
    difference componentB componentA = none ∧
    difference componentA componentB = none :=
  ⟨rfl, rfl, rfl, rfl⟩

/-! ## Claim C4: working-tree restoration in `load_all_components` -/

/-- C4 counterexample: loading at a historical revision with a component
document that fails validation raises, and the repository is left checked
out at the historical commit — the starting commit is not restored on the
error path (there is no try/finally around the loop). -/
theorem c4_restore_counterexample :
    load_all_components (fun s => some s) badFiles ⟨"startcommit"⟩ "historic" =
      (.error "Component document failed schema validation.", ⟨"historic"⟩) ∧
      ("historic" : String) ≠ "startcommit" :=
  ⟨rfl, by decide⟩

/-- C4 (amended): `load_all_components` restores the starting commit only on
the success path; when enumerating or reconstructing a component document
raises after the checkout, the error propagates with the working tree still
checked out at the requested historical revision (and when the commitish
itself fails to resolve, the tree is untouched). -/
theorem c4_restore_on_success_only (resolve : String → Option String)
    (files : List DocVal) (st : GitRepo) (commitish : String) :
    (∀ comps, (load_all_components resolve files st commitish).1 = .ok comps →
      (load_all_components resolve files st commitish).2 = ⟨st.head⟩) ∧
    (∀ commit e, resolve commitish = some commit →
      (load_all_components resolve files st commitish).1 = .error e →
      (load_all_components resolve files st commitish).2 = ⟨commit⟩) ∧
    (resolve commitish = none →
      load_all_components resolve files st commitish = (.error "bad commitish", st)) := by
  cases hres : resolve commitish with
  | none =>
    refine ⟨?_, ?_, ?_⟩
    · intro comps h
      rw [load_all_components, hres] at h
      simp at h
    · intro commit e hsome _
      simp at hsome
    · intro _
      rw [load_all_components, hres]
  | some commit =>
    cases hm : files.mapM component_from_file with
    | error e =>
      refine ⟨?_, ?_, ?_⟩
      · intro comps h
        rw [load_all_components, hres, hm] at h
        simp at h
      · intro commit' e' hsome _
        injection hsome with hcc
        subst hcc
        rw [load_all_components, hres, hm]
      · intro habs
        simp at habs
    | ok comps =>
      refine ⟨?_, ?_, ?_⟩
      · intro comps' _
        rw [load_all_components, hres, hm]
      · intro commit' e' _ h'
        rw [load_all_components, hres, hm] at h'
        simp at h'
      · intro habs
        simp at habs

/-- C4 witness: a successful load restores the starting commit. -/
theorem c4_restore_on_success_only_witness :
    (load_all_components (fun s => some s) [buildComponentDoc componentA]
      ⟨"startcommit"⟩ "historic").2 = ⟨"startcommit"⟩ :=
  (c4_restore_on_success_only (fun s => some s) [buildComponentDoc componentA]
    ⟨"startcommit"⟩ "historic").1 [componentA] rfl

/-! ## Claim C7: release-mode verification -/

theorem amendedSeriesGroup_iff (g : DocVal) :
    comparisonSeriesGroupValid g = true ↔ amendedSeriesGroup g = true := by
  cases g with
  | s v => simp [comparisonSeriesGroupValid, amendedSeriesGroup]
  | b v => simp [comparisonSeriesGroupValid, amendedSeriesGroup]
  | l v => simp [comparisonSeriesGroupValid, amendedSeriesGroup]
  | d gf =>
    simp only [comparisonSeriesGroupValid, amendedSeriesGroup, Bool.and_eq_true]
    constructor
    · rintro ⟨⟨⟨h1, h2⟩, h3⟩, h4⟩
      refine ⟨⟨⟨h1, h2⟩, h3⟩, ?_⟩
      cases hv : lookupField gf "versions" with
      | none => rw [hv] at h4; simp at h4
      | some val =>
        rw [hv] at h4
        cases val with
        | s x => simp at h4
        | b x => simp at h4
        | d x => simp at h4
        | l vs =>
          match vs with
          | [] => simp at h4
          | [v] => simpa using h4
          | v1 :: v2 :: t => simp at h4
    · rintro ⟨⟨⟨h1, h2⟩, h3⟩, h4⟩
      refine ⟨⟨⟨h1, h2⟩, h3⟩, ?_⟩
      cases hv : lookupField gf "versions" with
      | none => rw [hv] at h4; simp at h4
      | some val =>
        rw [hv] at h4
        cases val with
        | s x => simp at h4
        | b x => simp at h4
        | d x => simp at h4
        | l vs =>
          match vs with
          | [] => simp at h4
          | [v] => simpa using h4
          | v1 :: v2 :: t => simp at h4

theorem comparisonValid_iff_amended (d : DocVal) :
    comparisonAddedVersionValid d = true ↔ amendedReleaseShape d = true := by
  cases d with
  | s v => simp [comparisonAddedVersionValid, amendedReleaseShape]
  | b v => simp [comparisonAddedVersionValid, amendedReleaseShape]
  | l items => simp [comparisonAddedVersionValid, amendedReleaseShape]
  | d entries =>
    match entries with
    | [] => simp [comparisonAddedVersionValid, amendedReleaseShape]
    | (k, v) :: e2 :: t => simp [comparisonAddedVersionValid, amendedReleaseShape]
    | [(k, v)] =>
      cases v with
      | s vv => simp [comparisonAddedVersionValid, amendedReleaseShape, comparisonEntryValid]
      | b vv => simp [comparisonAddedVersionValid, amendedReleaseShape, comparisonEntryValid]
      | l vv => simp [comparisonAddedVersionValid, amendedReleaseShape, comparisonEntryValid]
      | d f =>
        simp only [comparisonAddedVersionValid, amendedReleaseShape, comparisonEntryValid,
          List.all_cons, List.all_nil, List.length_cons, List.length_nil, allDistinct,
          keysOf, List.map_cons, List.map_nil, List.contains_nil, Bool.not_false,
          Bool.and_true, Bool.true_and, Bool.and_eq_true, beq_iff_eq]
        constructor
        · rintro ⟨-, hk, ⟨hx, hdel⟩, hadd⟩
          refine ⟨⟨⟨?_, hx⟩, hdel⟩, ?_⟩
          · simpa using hk
          · cases ha : lookupField f "added" with
            | none => rw [ha] at hadd; simp at hadd
            | some val =>
              rw [ha] at hadd
              cases val with
              | s x => simp at hadd
              | b x => simp at hadd
              | l x => simp at hadd
              | d fa =>
                simp only [Bool.and_eq_true] at hadd ⊢
                refine ⟨hadd.1, ?_⟩
                have h4 := hadd.2
                cases hr : lookupField fa "releases" with
                | none => rw [hr] at h4; simp at h4
                | some rv =>
                  rw [hr] at h4
                  cases rv with
                  | s x => simp at h4
                  | b x => simp at h4
                  | d x => simp at h4
                  | l rs =>
                    match rs with
                    | [] => simp at h4
                    | [g] =>
                      simp only [List.all_cons, List.all_nil, Bool.and_true] at h4
                      have := (amendedSeriesGroup_iff g).mp (by simpa using h4)
                      simpa using this
                    | g1 :: g2 :: t => simp at h4
        · rintro ⟨⟨⟨hk, hx⟩, hdel⟩, hadd⟩
          refine ⟨trivial, by simpa using hk, ⟨hx, hdel⟩, ?_⟩
          cases ha : lookupField f "added" with
          | none => rw [ha] at hadd; simp at hadd
          | some val =>
            rw [ha] at hadd
            cases val with
            | s x => simp at hadd
            | b x => simp at hadd
            | l x => simp at hadd
            | d fa =>
              simp only [Bool.and_eq_true] at hadd ⊢
              refine ⟨hadd.1, ?_⟩
              have h4 := hadd.2
              cases hr : lookupField fa "releases" with
              | none => rw [hr] at h4; simp at h4
              | some rv =>
                rw [hr] at h4
                cases rv with
                | s x => simp at h4
                | b x => simp at h4
                | d x => simp at h4
                | l rs =>
                  match rs with
                  | [] => simp at h4
                  | [g] =>
                    have := (amendedSeriesGroup_iff g).mpr (by simpa using h4)
                    simp only [List.all_cons, List.all_nil, Bool.and_true]
                    simpa using this
                  | g1 :: g2 :: t => simp at h4

/-- C7 counterexample: a comparison map of exactly the shape the claim
states (one component key, empty `deleted`, one series with one version
entry) whose version entry is malformed fails validation, so verification
does not succeed on every map of that shape. -/
theorem c7_release_verify_counterexample :
    releaseShapeSpec badComparison = true ∧
      comparisonAddedVersionValid badComparison = false ∧
      compare_verify_release badComparison [] = .error (.invalidShape badComparison) :=
  ⟨rfl, rfl, rfl⟩

/-- C7 (amended): release-mode verification succeeds iff the comparison map
has exactly one component key — a nonempty string — whose value carries
exactly an `added` and a `deleted` part, the `deleted` part empty and the
`added` part exactly one `releases` series group (keys within
`series`/`versions`, any `series` name nonempty) holding exactly one version
entry that is itself a schema-valid version/sha pair; on success the single
newly added release is returned (looked up by the added version on the
matching `to` component), and any other map fails with a validation error
carrying the comparison map. -/
theorem c7_release_verify_spec :
    (∀ d : DocVal, comparisonAddedVersionValid d = true ↔ amendedReleaseShape d = true) ∧
      (∀ (d : DocVal) (toComponents : List Component) (name ver : String)
        (c : Component) (rest : List Component) (r : Release),
        comparisonAddedVersionValid d = true →
        extractAddedNameVersion d = some (name, ver) →
        toComponents.filter (fun c0 => c0.name == name) = c :: rest →
        get_release c ver false = .ok r →
        compare_verify_release d toComponents = .ok r) ∧
      (∀ (d : DocVal) (toComponents : List Component),
        comparisonAddedVersionValid d = false →
        compare_verify_release d toComponents = .error (.invalidShape d)) := by
  refine ⟨comparisonValid_iff_amended, ?_, ?_⟩
  · intro d toComponents name ver c rest r hvalid hext hfil hget
    rw [compare_verify_release, if_pos hvalid, hext]
    simp only [hfil, hget]
  · intro d toComponents hvalid
    rw [compare_verify_release, if_neg (by simp [hvalid])]

/-- C7 witness: verification of a well-formed one-release diff returns the
newly added release. -/
theorem c7_release_verify_spec_witness :
    compare_verify_release goodComparison [componentB] = .ok rel110 :=
  c7_release_verify_spec.2.1 goodComparison [componentB] "test1" "1.1.0"
    componentB [] rel110 rfl rfl rfl rfl

/-! ## Claim C8: all-or-nothing, change-gated requirements update -/

theorem mapM_resolve_append_fail (cenv : String → Option Component)
    (benv : String → Option String) (dep : DepEntry) (post : List DepEntry)
    (err : UpdateErr) (hdep : resolveDependency cenv benv dep = .error err) :
    ∀ pre : List DepEntry, (∀ d ∈ pre, ∃ req, resolveDependency cenv benv d = .ok req) →
    (pre ++ dep :: post).mapM (resolveDependency cenv benv) = .error err := by
  intro pre
  induction pre with
  | nil =>
    intro _
    rw [List.nil_append, List.mapM_cons, hdep]
    rfl
  | cons d pre' ih =>
    intro h
    obtain ⟨req, hreq⟩ := h d (by simp)
    rw [List.cons_append, List.mapM_cons, hreq]
    have := ih (fun x hx => h x (by simp [hx]))
    simp only [this]
    rfl

/-- C8: the requirements update is all-or-nothing and change-gated: when
any dependency entry fails version-constraint resolution (all entries before
it resolving), the whole batch fails with the error naming that component
and its constraints and the requirements file keeps its previous contents
with nothing committed; when the whole batch resolves, the full document is
regenerated and it is written and committed exactly when it differs from the
previously persisted document. -/
theorem c8_update_requirements_spec :
    (∀ (cenv : String → Option Component) (benv : String → Option String)
      (pre : List DepEntry) (dep : DepEntry) (post : List DepEntry)
      (existing : List Requirement) (comp : Component),
      (∀ d ∈ pre, ∃ req, resolveDependency cenv benv d = .ok req) →
      cenv dep.name = some comp →
      branchConstraintsValid dep.constraints = false →
      requirement_from_version_constraints comp dep.constraints =
        .error (.noMatch comp.name dep.constraints) →
      dependency_update_requirements cenv benv (pre ++ dep :: post) existing =
        (.error (.unresolved comp.name dep.constraints), existing, false)) ∧
    (∀ (cenv : String → Option Component) (benv : String → Option String)
      (deps : List DepEntry) (existing reqs : List Requirement),
      update_requirements cenv benv deps = .ok reqs →
      dependency_update_requirements cenv benv deps existing =
        (.ok reqs, if reqs == existing then existing else reqs, !(reqs == existing))) ∧
    (∀ (cenv : String → Option Component) (benv : String → Option String)
      (deps : List DepEntry) (existing : List Requirement) (e : UpdateErr),
      update_requirements cenv benv deps = .error e →
      dependency_update_requirements cenv benv deps existing = (.error e, existing, false)) := by
  refine ⟨?_, ?_, ?_⟩
  · intro cenv benv pre dep post existing comp hpre hcenv hbranch hrfvc
    have hdep : resolveDependency cenv benv dep =
        .error (.unresolved comp.name dep.constraints) := by
      rw [resolveDependency, hcenv]
      simp only [hbranch, Bool.false_eq_true, if_false]
      rw [hrfvc]
    have hmap := mapM_resolve_append_fail cenv benv dep post _ hdep pre hpre
    have hupd : update_requirements cenv benv (pre ++ dep :: post) =
        .error (.unresolved comp.name dep.constraints) := by
      rw [update_requirements, hmap]
      rfl
    rw [dependency_update_requirements, hupd]
  · intro cenv benv deps existing reqs h
    rw [dependency_update_requirements, h]
    by_cases hbe : (reqs == existing) = true
    · simp [hbe]
    · simp only [Bool.not_eq_true] at hbe
      simp [hbe]
  · intro cenv benv deps existing e h
    rw [dependency_update_requirements, h]

/-- C8 witness: a single unsatisfiable dependency aborts the run with the
aggregated error and leaves the requirements file unwritten. -/
theorem c8_update_requirements_spec_witness :
    dependency_update_requirements (fun _ => some exampleComponent) (fun _ => none)
        ([] ++ ⟨"test1", ["version>10.0.0"]⟩ :: []) [] =
      (.error (.unresolved "test1" ["version>10.0.0"]), [], false) :=
  c8_update_requirements_spec.1 (fun _ => some exampleComponent) (fun _ => none) [] ⟨"test1", ["version>10.0.0"]⟩
    [] [] exampleComponent (by simp) rfl rfl rfl

/-! ## Claim C1: the constraint resolver -/

theorem parseConstraint_of_parseVersion (l : List Char) (k : VKey)
    (h : parseVersionCore l = some k) : parseConstraintCore l = some k.toList := by
  rw [parseVersionCore] at h
  simp only [Option.bind_eq_bind] at h
  cases h1 : parseDigits l with
  | none => rw [h1] at h; simp at h
  | some p1 =>
    obtain ⟨M, l1⟩ := p1
    rw [h1] at h
    simp only [Option.some_bind] at h
    cases h2 : consumeChar '.' l1 with
    | none => rw [h2] at h; simp at h
    | some l2 =>
      rw [h2] at h
      simp only [Option.some_bind] at h
      cases h3 : parseDigits l2 with
      | none => rw [h3] at h; simp at h
      | some p2 =>
        obtain ⟨m, l3⟩ := p2
        rw [h3] at h
        simp only [Option.some_bind] at h
        cases h4 : consumeChar '.' l3 with
        | none => rw [h4] at h; simp at h
        | some l4 =>
          rw [h4] at h
          simp only [Option.some_bind] at h
          cases h5 : parseDigits l4 with
          | none => rw [h5] at h; simp at h
          | some p3 =>
            obtain ⟨p, l5⟩ := p3
            rw [h5] at h
            simp only [Option.some_bind] at h
            cases h6 : parseChannel l5 with
            | none => rw [h6] at h; simp at h
            | some p4 =>
              obtain ⟨rank, cv⟩ := p4
              rw [h6] at h
              simp only [Option.some_bind, Option.pure_def, Option.some.injEq] at h
              subst h
              have hl1 : l1 = '.' :: l2 := consumeChar_inv _ _ _ h2
              have hl3 : l3 = '.' :: l4 := consumeChar_inv _ _ _ h4
              rw [parseConstraintCore]
              simp only [Option.bind_eq_bind]
              rw [h1]
              simp only [Option.some_bind]
              rw [hl1]
              simp only []
              rw [consumeChar, if_pos rfl]
              simp only [Option.some_bind]
              rw [h3]
              simp only [Option.some_bind]
              rw [hl3]
              simp only []
              rw [consumeChar, if_pos rfl]
              simp only [Option.some_bind]
              rw [h5]
              simp only [Option.some_bind]
              rw [h6]
              rfl

theorem constraint_key_of_version_key (s : String) (k : VKey)
    (h : version_key s = some k) : constraint_key s = some k.toList :=
  parseConstraint_of_parseVersion (stripR s.data) k h

theorem meets_isSome (v : String) (k : VKey) (hv : version_key v = some k) :
    ∀ checks : List (CmpOp × List Nat), ∃ b, meetsConstraints checks v = some b := by
  intro checks
  induction checks with
  | nil => exact ⟨true, rfl⟩
  | cons c rest ih =>
    obtain ⟨b, hb⟩ := ih
    have hck : checkConstraint c.1 c.2 v =
        some (applyCmpOp c.1 (k.toList.take c.2.length) c.2) := by
      rw [checkConstraint, constraint_key_of_version_key v k hv]
      rfl
    refine ⟨applyCmpOp c.1 (k.toList.take c.2.length) c.2 && b, ?_⟩
    rw [meetsConstraints, List.foldr_cons, hck]
    have : List.foldr _ _ rest = meetsConstraints rest v := rfl
    rw [this, hb]
    rfl

theorem releaseLeB_refl (r : Release) (h : (version_key r.version).isSome = true) :
    releaseLeB r r = true := by
  rw [releaseLeB]
  cases hk : version_key r.version with
  | none => rw [hk] at h; simp at h
  | some k => exact tupleLeB_refl k.toList

theorem releaseLeB_trans (a b c : Release) (hab : releaseLeB a b = true)
    (hbc : releaseLeB b c = true) : releaseLeB a c = true := by
  rw [releaseLeB] at *
  cases ha : version_key a.version with
  | none => rw [ha] at hab; simp at hab
  | some ka =>
    cases hb : version_key b.version with
    | none => rw [hb] at hab; simp [ha, hb] at hab
    | some kb =>
      cases hc : version_key c.version with
      | none => rw [hc] at hbc; simp [hb, hc] at hbc
      | some kc =>
        rw [ha, hb] at hab
        rw [hb, hc] at hbc
        exact tupleLeB_trans ka.toList kb.toList kc.toList hab hbc

theorem sortedAsc_cons (r : Release) (rest : List Release)
    (h : sortedAscByKeyB (r :: rest) = true) :
    sortedAscByKeyB rest = true ∧ ∀ x ∈ rest.head?, releaseLeB r x = true := by
  cases rest with
  | nil => exact ⟨rfl, by simp⟩
  | cons s t =>
    rw [sortedAscByKeyB] at h
    simp only [Bool.and_eq_true] at h
    exact ⟨h.2, by simpa [releaseLeB] using h.1⟩

theorem sorted_prefix_le (r : Release) : ∀ (xs ys : List Release),
    sortedAscByKeyB (xs ++ r :: ys) = true → ∀ x ∈ xs, releaseLeB x r = true := by
  intro xs
  induction xs with
  | nil => intro ys _ x hx; simp at hx
  | cons a xs' ih =>
    intro ys hs x hx
    have hrest : sortedAscByKeyB (xs' ++ r :: ys) = true := by
      rw [List.cons_append] at hs
      exact (sortedAsc_cons a _ hs).1
    have hhead : ∀ z ∈ (xs' ++ r :: ys).head?, releaseLeB a z = true := by
      rw [List.cons_append] at hs
      exact (sortedAsc_cons a _ hs).2
    rcases List.mem_cons.mp hx with heq | hx'
    · subst heq
      cases hxs : xs' with
      | nil =>
        apply hhead
        rw [hxs]
        simp
      | cons b t =>
        have hab : releaseLeB x b = true := by
          apply hhead
          rw [hxs]
          simp
        have hbr : releaseLeB b r = true := by
          apply ih ys hrest
          rw [hxs]
          simp
        exact releaseLeB_trans x b r hab hbr
    · exact ih ys hrest x hx'

theorem resolveScan_ok (c : Component) (checks : List (CmpOp × List Nat))
    (cs : List String) (req : Requirement) : ∀ rl : List Release,
    resolveScan c checks cs rl = .ok req →
    ∃ pre r post, rl = pre ++ r :: post ∧
      (∀ p ∈ pre, meetsConstraints checks p.version = some false) ∧
      meetsConstraints checks r.version = some true ∧
      req = requirementOfRelease c r := by
  intro rl
  induction rl with
  | nil => intro h; simp [resolveScan] at h
  | cons r rest ih =>
    intro h
    rw [resolveScan] at h
    cases hm : meetsConstraints checks r.version with
    | none => rw [hm] at h; simp at h
    | some b =>
      rw [hm] at h
      cases b with
      | true =>
        simp at h
        exact ⟨[], r, rest, by simp, by simp, hm, h.symm⟩
      | false =>
        simp only [] at h
        obtain ⟨pre, r', post, hsplit, hpre, hr', hreq⟩ := ih h
        exact ⟨r :: pre, r', post, by rw [hsplit, List.cons_append],
          fun p hp => by
            rcases List.mem_cons.mp hp with heq | hp'
            · subst heq; exact hm
            · exact hpre p hp',
          hr', hreq⟩

theorem resolveScan_error (c : Component) (checks : List (CmpOp × List Nat))
    (cs : List String) (e : ResolveErr) : ∀ rl : List Release,
    (∀ r ∈ rl, (version_key r.version).isSome = true) →
    resolveScan c checks cs rl = .error e →
    e = .noMatch c.name cs ∧ ∀ r ∈ rl, meetsConstraints checks r.version = some false := by
  intro rl
  induction rl with
  | nil =>
    intro _ h
    rw [resolveScan] at h
    simp at h
    exact ⟨h.symm, by simp⟩
  | cons r rest ih =>
    intro hparse h
    rw [resolveScan] at h
    cases hm : meetsConstraints checks r.version with
    | none =>
      exfalso
      have hk : (version_key r.version).isSome = true := hparse r (by simp)
      cases hkk : version_key r.version with
      | none => rw [hkk] at hk; simp at hk
      | some k =>
        obtain ⟨b, hb⟩ := meets_isSome r.version k hkk checks
        rw [hb] at hm
        simp at hm
    | some b =>
      rw [hm] at h
      cases b with
      | true => simp at h
      | false =>
        simp only [] at h
        obtain ⟨he, hall⟩ := ih (fun x hx => hparse x (by simp [hx])) h
        refine ⟨he, fun x hx => ?_⟩
        rcases List.mem_cons.mp hx with heq | hx'
        · subst heq; exact hm
        · exact hall x hx'

/-- C1: constraint resolution scans the releases from highest to lowest and
returns the newest release satisfying every constraint (candidate keys
truncated to the constraint key's significant length and compared with the
constraint's operator): any successful result is a release meeting all
predicates that no other satisfying release exceeds; a failure is the
no-match error and means no release satisfies the conjunction; an empty
constraint list resolves to the last (newest) release unconditionally; and
on the twelve-release example component the seven claimed resolutions hold
exactly. -/
theorem c1_resolver_spec :
    (∀ (c : Component) (constraints : List String) (checks : List (CmpOp × List Nat)),
      constraints.mapM parseVersionConstraint = some checks →
      allVersionsParse c.releases = true →
      sortedAscByKeyB c.releases = true →
      (∀ req, requirement_from_version_constraints c constraints = .ok req →
        ∃ r ∈ c.releases, req = requirementOfRelease c r ∧
          meetsConstraints checks r.version = some true ∧
          ∀ r' ∈ c.releases, meetsConstraints checks r'.version = some true →
            releaseLeB r' r = true) ∧
      (∀ e, requirement_from_version_constraints c constraints = .error e →
        e = .noMatch c.name constraints ∧
          ∀ r ∈ c.releases, meetsConstraints checks r.version = some false) ∧
      (constraints = [] → ∀ (rs : List Release) (r : Release), c.releases = rs ++ [r] →
        requirement_from_version_constraints c constraints =
          .ok (requirementOfRelease c r))) ∧
    (requirement_from_version_constraints exampleComponent [] =
        .ok (exampleRequirement "10.0.0" "0000000000000000000000000000000000000009") ∧
      requirement_from_version_constraints exampleComponent ["version<10.0.0"] =
        .ok (exampleRequirement "2.0.0" "0000000000000000000000000000000000000008") ∧
      requirement_from_version_constraints exampleComponent ["version<2"] =
        .ok (exampleRequirement "1.1.1" "0000000000000000000000000000000000000004") ∧
      requirement_from_version_constraints exampleComponent ["version<1.1"] =
        .ok (exampleRequirement "1.0.1" "0000000000000000000000000000000000000002") ∧
      requirement_from_version_constraints exampleComponent ["version<=1.1"] =
        .ok (exampleRequirement "1.1.1" "0000000000000000000000000000000000000004") ∧
      requirement_from_version_constraints exampleComponent ["version<2.0.0-beta.1"] =
        .ok (exampleRequirement "2.0.0-alpha.1" "0000000000000000000000000000000000000005") ∧
      requirement_from_version_constraints exampleComponent ["version<2.0.0-rc.2"] =
        .ok (exampleRequirement "2.0.0-rc.1" "0000000000000000000000000000000000000007")) := by
  refine ⟨?_, rfl, rfl, rfl, rfl, rfl, rfl, rfl⟩
  intro c constraints checks hparse hall hsorted
  have hparse' : ∀ r ∈ c.releases, (version_key r.version).isSome = true := by
    intro r hr
    rw [allVersionsParse, List.all_eq_true] at hall
    exact hall r hr
  refine ⟨?_, ?_, ?_⟩
  · intro req h
    rw [requirement_from_version_constraints, hparse] at h
    obtain ⟨pre, r, post, hsplit, hpre, hr, hreq⟩ :=
      resolveScan_ok c checks constraints req c.releases.reverse h
    have hrel : c.releases = post.reverse ++ r :: pre.reverse := by
      have := congrArg List.reverse hsplit
      simpa [List.reverse_append] using this
    have hrmem : r ∈ c.releases := by
      rw [hrel]
      simp
    refine ⟨r, hrmem, hreq, hr, ?_⟩
    intro r' hr' hm'
    have hr'rev : r' ∈ pre ++ r :: post := by
      have : r' ∈ c.releases.reverse := List.mem_reverse.mpr hr'
      rwa [hsplit] at this
    rcases List.mem_append.mp hr'rev with hp | hrp
    · exfalso
      have := hpre r' hp
      rw [hm'] at this
      simp at this
    · rcases List.mem_cons.mp hrp with heq | hpost
      · subst heq
        exact releaseLeB_refl r' (hparse' r' hr')
      · apply sorted_prefix_le r post.reverse pre.reverse (by rw [← hrel]; exact hsorted)
        simpa using hpost
  · intro e h
    rw [requirement_from_version_constraints, hparse] at h
    have := resolveScan_error c checks constraints e c.releases.reverse
      (fun x hx => hparse' x (List.mem_reverse.mp hx)) h
    exact ⟨this.1, fun r hr => this.2 r (List.mem_reverse.mpr hr)⟩
  · intro hc rs r hsplit
    subst hc
    rw [List.mapM_nil] at hparse
    have hchecks : checks = [] := by simpa using hparse.symm
    subst hchecks
    rw [requirement_from_version_constraints]
    simp only [List.mapM_nil]
    rw [hsplit]
    have hrev : (rs ++ [r]).reverse = r :: rs.reverse := by simp
    rw [hrev]
    rfl

/-- C1 witness: the general resolver specification instantiated at the
example component with the constraint `version<2`. -/
theorem c1_resolver_spec_witness :
    ∃ r ∈ exampleComponent.releases,
      exampleRequirement "1.1.1" "0000000000000000000000000000000000000004" =
        requirementOfRelease exampleComponent r ∧
        meetsConstraints [(CmpOp.opLt, [2])] r.version = some true ∧
        ∀ r' ∈ exampleComponent.releases,
          meetsConstraints [(CmpOp.opLt, [2])] r'.version = some true →
            releaseLeB r' r = true :=
  (c1_resolver_spec.1 exampleComponent ["version<2"] [(CmpOp.opLt, [2])]
    rfl rfl rfl).1
    (exampleRequirement "1.1.1" "0000000000000000000000000000000000000004") rfl
